import Mathlib

/-!
# Verification of the casacore coordinate-transformation core

Shallow embedding of `Coordinate.cc` and `CoordinateSystem.cc`
(aips++ / casacore coordinates module).  C++ `Double` values are modelled
as `ℚ` (the code under study performs only field arithmetic and
comparisons on them), `Vector<T>` / `Block<T>` as `List`, and
`Matrix<Double>` as a list of rows (or of columns where noted).

Concrete sub-coordinate classes (Linear, Direction, Spectral, Stokes,
Tabular) are external to the two source files; a sub-coordinate is
therefore modelled as a record of its observable descriptors together
with abstract conversion / comparison functions, exactly the capability
set the composite consumes.
-/

namespace Casa

open scoped List

/-- The tolerance-based floating comparison `::near(a,b)`.
Modelled from the spec: the body of aips `near` is not part of the two
source files; §4.1/§4.4 of the spec describe it as the relative-equality
predicate `|a − b| ≤ tol · max(|a|,|b|)` (with equal values always near). -/
def nearQ (tol a b : ℚ) : Bool :=
  a == b || |a - b| ≤ tol * max |a| |b|

/-- Default tolerance of aips `::near` (1.0e-13). -/
def nearTol : ℚ := 1 / 10 ^ 13

/-- `Coordinate::Type` (kinds of sub-coordinates). -/
inductive CKind where
  | linear | direction | spectral | stokes | tabular | coordsys
deriving DecidableEq, Repr

/-- Values storable in a `Record` (the opaque keyed container used by
`save`/`restore`).  A record is an association list of named values. -/
inductive RVal where
  /-- a `Vector<Int>` field -/
  | ivec (v : List Int) : RVal
  /-- a `Vector<Double>` field -/
  | dvec (v : List ℚ) : RVal
  /-- a nested sub-record -/
  | sub (r : List (String × RVal)) : RVal
  /-- opaque payload written by a sub-coordinate's own `save` -/
  | payload (n : ℕ) : RVal

/-- A `Record` / `RecordInterface`: named fields in definition order. -/
abbrev Rec := List (String × RVal)

/-- `RecordInterface::isDefined`. -/
def Rec.isDefinedB (r : Rec) (name : String) : Bool :=
  r.any (fun p => p.1 == name)

/-- `RecordInterface::define` / `defineRecord` (adds a new field). -/
def Rec.defineF (r : Rec) (name : String) (v : RVal) : Rec :=
  r ++ [(name, v)]

/-- The observable descriptor data of a sub-coordinate: everything the
`Coordinate` capability set exposes about it short of its conversion
functions (`n_pixel_axes`, `n_world_axes`, reference value/pixel,
increment, linear transform, axis names/units, kind). -/
structure CoordData where
  nw : ℕ
  np : ℕ
  refVal : List ℚ      -- length nw
  refPix : List ℚ      -- length np
  inc : List ℚ         -- length nw
  xform : List (List ℚ)  -- nw rows × np columns
  names : List String  -- length nw
  units : List String  -- length nw
  kind : CKind
deriving DecidableEq

/-- A sub-coordinate: descriptor data plus the abstract per-class
operations the composite dispatches to (`toWorld`, `toPixel`, `near`,
and the record payload its own `save` writes).  The concrete
sub-coordinate classes live outside the two source files, so these
operations are opaque function fields. -/
structure Coord where
  d : CoordData
  toWorldF : List ℚ → Option (List ℚ)
  toPixelF : List ℚ → Option (List ℚ)
  nearF : CoordData → List Int → ℚ → Bool
  ownRec : ℕ

namespace Coord

def nw (c : Coord) : ℕ := c.d.nw
def np (c : Coord) : ℕ := c.d.np
def refVal (c : Coord) : List ℚ := c.d.refVal
def refPix (c : Coord) : List ℚ := c.d.refPix
def inc (c : Coord) : List ℚ := c.d.inc
def xform (c : Coord) : List (List ℚ) := c.d.xform
def names (c : Coord) : List String := c.d.names
def units (c : Coord) : List String := c.d.units
def kind (c : Coord) : CKind := c.d.kind

instance : Inhabited Coord :=
  ⟨⟨⟨0, 0, [], [], [], [], [], [], .linear⟩,
    fun _ => none, fun _ => none, fun _ _ _ => false, 0⟩⟩

end Coord

/-- `CoordinateSystem` state: the sequence of owned sub-coordinates plus
the parallel per-sub-coordinate tables of the source
(`world_maps_p`, `pixel_maps_p`, `world_replacement_values_p`,
`pixel_replacement_values_p`, `world_tmps_p`, `pixel_tmps_p`). -/
structure CS where
  coords : List Coord
  wmaps : List (List Int)
  pmaps : List (List Int)
  wrep : List (List ℚ)
  prep : List (List ℚ)
  wtmp : List (List ℚ)
  ptmp : List (List ℚ)

namespace CS

/-- The empty system (default constructor). -/
def empty : CS := ⟨[], [], [], [], [], [], []⟩

/-- `CoordinateSystem::nCoordinates`. -/
def nCoords (s : CS) : ℕ := s.coords.length

/-- Count of non-negative entries across a family of maps
(`CoordinateSystem::nWorldAxes` / `nPixelAxes` count this way). -/
def countExposed (maps : List (List Int)) : ℕ :=
  (maps.map (fun m => (m.filter (fun v => 0 ≤ v)).length)).sum

/-- `CoordinateSystem::nWorldAxes`. -/
def nW (s : CS) : ℕ := countExposed s.wmaps

/-- `CoordinateSystem::nPixelAxes`. -/
def nP (s : CS) : ℕ := countExposed s.pmaps

/-- Scan a family of maps for the first `(coordinate, axisInCoordinate)`
position holding value `w` (the shared body of
`CoordinateSystem::findWorldAxis` / `findPixelAxis`). -/
def findIn (maps : List (List Int)) (w : Int) : Option (ℕ × ℕ) :=
  match maps with
  | [] => none
  | m :: rest =>
    match m.findIdx? (fun v => v == w) with
    | some j => some (0, j)
    | none => (findIn rest w).map (fun p => (p.1 + 1, p.2))

/-- `CoordinateSystem::findWorldAxis`. -/
def findW (s : CS) (axis : ℕ) : Option (ℕ × ℕ) := findIn s.wmaps (Int.ofNat axis)

/-- `CoordinateSystem::findPixelAxis`. -/
def findP (s : CS) (axis : ℕ) : Option (ℕ × ℕ) := findIn s.pmaps (Int.ofNat axis)

/-- The `which`-th owned sub-coordinate (`CoordinateSystem::coordinate`). -/
def coordAt (s : CS) (which : ℕ) : Coord := s.coords.getD which default

end CS

/-- Write `v` at row `c`, column `a` of a list-of-lists (no-op when out of
range, mirroring that the source only ever writes in-range). -/
def setIn2 {α : Type} (ls : List (List α)) (c a : ℕ) (v : α) : List (List α) :=
  ls.set c ((ls.getD c []).set a v)

/-- Gather loop shared by the world-derived getters
(`worldAxisNames/Units`, `referenceValue`, `increment`): walk each
exposed world index back to its (coordinate, axis) origin and read the
sub-coordinate's own vector there. -/
def gatherW {α : Type} (s : CS) (f : Coord → List α) (dflt : α) : List α :=
  (List.range s.nW).map (fun i =>
    match s.findW i with
    | some (c, a) => (f (s.coordAt c)).getD a dflt
    | none => dflt)

/-- Gather loop for the pixel-derived getter (`referencePixel`). -/
def gatherP {α : Type} (s : CS) (f : Coord → List α) (dflt : α) : List α :=
  (List.range s.nP).map (fun i =>
    match s.findP i with
    | some (c, a) => (f (s.coordAt c)).getD a dflt
    | none => dflt)

namespace CS

/-- `CoordinateSystem::worldAxisNames`. -/
def worldAxisNames (s : CS) : List String := gatherW s Coord.names ""

/-- `CoordinateSystem::worldAxisUnits`. -/
def worldAxisUnits (s : CS) : List String := gatherW s Coord.units ""

/-- `CoordinateSystem::referenceValue`. -/
def referenceValue (s : CS) : List ℚ := gatherW s Coord.refVal 0

/-- `CoordinateSystem::increment`. -/
def increment (s : CS) : List ℚ := gatherW s Coord.inc 0

/-- `CoordinateSystem::referencePixel`. -/
def referencePixel (s : CS) : List ℚ := gatherP s Coord.refPix 0

/-- `CoordinateSystem::linearTransform`: entry `(i,j)` comes from a
sub-coordinate's own transform when exposed world axis `i` and exposed
pixel axis `j` trace back to the same sub-coordinate, else 0. -/
def linearTransform (s : CS) : List (List ℚ) :=
  (List.range s.nW).map (fun i =>
    (List.range s.nP).map (fun j =>
      match s.findW i, s.findP j with
      | some (wc, wa), some (pc, pa) =>
        if wc = pc then ((s.coordAt wc).xform.getD wa []).getD pa 0 else 0
      | _, _ => 0))

end CS

/-- Scatter loop shared by the setters: route the caller's full-length
vector back through a map into a sub-coordinate's own vector. -/
def scatterVec {α : Type} (map : List Int) (cur full : List α) (dflt : α) : List α :=
  (List.range cur.length).map (fun j =>
    let which := map.getD j (-1)
    if 0 ≤ which then full.getD which.toNat dflt else cur.getD j dflt)

namespace Coord

/-- Modelled from the spec: the concrete sub-coordinate classes'
`setReferencePixel` (external to the two source files) stores the given
vector and reports success (§3 capability set). -/
def withRefPix (c : Coord) (v : List ℚ) : Coord := { c with d := { c.d with refPix := v } }

/-- Modelled from the spec: sub-coordinate `setReferenceValue` (external),
stores the vector. -/
def withRefVal (c : Coord) (v : List ℚ) : Coord := { c with d := { c.d with refVal := v } }

/-- Modelled from the spec: sub-coordinate `setIncrement` (external),
stores the vector. -/
def withInc (c : Coord) (v : List ℚ) : Coord := { c with d := { c.d with inc := v } }

/-- Modelled from the spec: sub-coordinate `setWorldAxisNames` (external),
stores the vector. -/
def withNames (c : Coord) (v : List String) : Coord := { c with d := { c.d with names := v } }

/-- Modelled from the spec: sub-coordinate `setWorldAxisUnits` (external,
beyond the base-class part verified separately), stores the vector. -/
def withUnits (c : Coord) (v : List String) : Coord := { c with d := { c.d with units := v } }

end Coord

namespace CS

/-- `CoordinateSystem::setReferencePixel`: scatter through the pixel maps
into every sub-coordinate, AND the per-sub-coordinate flags (the modelled
sub-coordinate setters always succeed). -/
def setReferencePixel (s : CS) (refPix : List ℚ) : CS × Bool :=
  ({ s with coords := s.coords.mapIdx (fun i c =>
      c.withRefPix (scatterVec (s.pmaps.getD i []) c.refPix refPix 0)) }, true)

/-- `CoordinateSystem::setReferenceValue`. -/
def setReferenceValue (s : CS) (refVal : List ℚ) : CS × Bool :=
  ({ s with coords := s.coords.mapIdx (fun i c =>
      c.withRefVal (scatterVec (s.wmaps.getD i []) c.refVal refVal 0)) }, true)

/-- `CoordinateSystem::setIncrement`. -/
def setIncrement (s : CS) (inc : List ℚ) : CS × Bool :=
  ({ s with coords := s.coords.mapIdx (fun i c =>
      c.withInc (scatterVec (s.wmaps.getD i []) c.inc inc 0)) }, true)

/-- `CoordinateSystem::setWorldAxisNames`. -/
def setWorldAxisNames (s : CS) (names : List String) : CS × Bool :=
  ({ s with coords := s.coords.mapIdx (fun i c =>
      c.withNames (scatterVec (s.wmaps.getD i []) c.names names "")) }, true)

/-- `CoordinateSystem::setWorldAxisUnits` (scatter part; the per-class
unit handling is verified separately at the `Coordinate` level). -/
def setWorldAxisUnits (s : CS) (units : List String) : CS × Bool :=
  ({ s with coords := s.coords.mapIdx (fun i c =>
      c.withUnits (scatterVec (s.wmaps.getD i []) c.units units "")) }, true)

/-- `CoordinateSystem::addCoordinate`: append a sub-coordinate, exposing
its axes as the next free world / pixel indices, with fresh replacement
and scratch vectors. -/
def addCoordinate (s : CS) (c : Coord) : CS :=
  let ow := s.nW
  let op := s.nP
  { coords := s.coords ++ [c]
    wmaps := s.wmaps ++ [(List.range c.nw).map (fun i => Int.ofNat (ow + i))]
    pmaps := s.pmaps ++ [(List.range c.np).map (fun i => Int.ofNat (op + i))]
    wrep := s.wrep ++ [List.replicate c.nw 0]
    prep := s.prep ++ [List.replicate c.np 0]
    wtmp := s.wtmp ++ [List.replicate c.nw 0]
    ptmp := s.ptmp ++ [List.replicate c.np 0] }

/-- `CoordinateSystem::removeWorldAxis`: record the replacement value,
mark the axis removed (`-1`), then decrement every exposed world index
greater than the removed one.  An out-of-range axis raises an assertion
in the source before any mutation, so it leaves the state unchanged. -/
def removeWorldAxis (s : CS) (axis : ℕ) (replacement : ℚ) : CS :=
  if axis < s.nW then
    match s.findW axis with
    | none => s
    | some (c, a) =>
      let s1 := { s with wrep := setIn2 s.wrep c a replacement,
                         wmaps := setIn2 s.wmaps c a (-1) }
      { s1 with wmaps := s1.wmaps.map (fun m =>
          m.map (fun v => if v > Int.ofNat axis then v - 1 else v)) }
  else s

/-- `CoordinateSystem::removePixelAxis` (pixel analogue). -/
def removePixelAxis (s : CS) (axis : ℕ) (replacement : ℚ) : CS :=
  if axis < s.nP then
    match s.findP axis with
    | none => s
    | some (c, a) =>
      let s1 := { s with prep := setIn2 s.prep c a replacement,
                         pmaps := setIn2 s.pmaps c a (-1) }
      { s1 with pmaps := s1.pmaps.map (fun m =>
          m.map (fun v => if v > Int.ofNat axis then v - 1 else v)) }
  else s

/-- The permutation validation of `CoordinateSystem::transpose` (each
entry in range, none seen twice, length matches the axis count). -/
def isPermList (l : List Int) (n : ℕ) : Bool :=
  l.length == n && l.all (fun v => 0 ≤ v && v < (n : Int)) && decide l.Nodup

/-- The axis-moving loop of `transpose`: for each `i`, the axis currently
exposed as `order[i]` (located in the *original* maps) becomes exposed
as `i` in the fresh copy. -/
def applyMoves (orig : List (List Int)) (order : List Int) : List (List Int) :=
  (List.range order.length).foldl (fun acc i =>
    match findIn orig (order.getD i 0) with
    | some (c, a) => setIn2 acc c a (Int.ofNat i)
    | none => acc) orig

/-- `CoordinateSystem::transpose`: validate both orders, then rebuild the
world and pixel maps; sub-coordinate storage order is untouched.  Invalid
orders raise an assertion before any mutation. -/
def transpose (s : CS) (worldOrder pixelOrder : List Int) : CS :=
  if isPermList worldOrder s.nW && isPermList pixelOrder s.nP then
    { s with wmaps := applyMoves s.wmaps worldOrder,
             pmaps := applyMoves s.pmaps pixelOrder }
  else s

/-- `CoordinateSystem::replaceCoordinate`: substitute a sub-coordinate of
identical world/pixel axis counts; maps are untouched. -/
def replaceCoordinate (s : CS) (c : Coord) (which : ℕ) : CS :=
  if which < s.nCoords ∧ c.np = (s.coordAt which).np ∧ c.nw = (s.coordAt which).nw then
    { s with coords := s.coords.set which c }
  else s

/-- `CoordinateSystem::restoreOriginal`: rebuild from scratch by
re-appending every owned sub-coordinate to an empty system. -/
def restoreOriginal (s : CS) : CS :=
  s.coords.foldl addCoordinate empty

end CS

/-- Read the entry at row `c`, column `a` of a family of maps. -/
def Get (maps : List (List Int)) (c a : ℕ) : Option Int :=
  maps[c]?.bind (fun m => m[a]?)

/-- All non-negative (exposed) entries of a family of maps, in traversal
order. -/
def exposedVals (maps : List (List Int)) : List Int :=
  maps.flatten.filter (fun v => 0 ≤ v)

/-- The axis-mapping invariant of §3 of the spec: the exposed entries are
a permutation of `{0, …, n−1}`. -/
def mapsGood (maps : List (List Int)) (n : ℕ) : Prop :=
  List.Perm (exposedVals maps) ((List.range n).map Int.ofNat)

/-- The per-system axis-mapping invariant. -/
def CS.Inv (s : CS) : Prop := mapsGood s.wmaps s.nW ∧ mapsGood s.pmaps s.nP

/-- Systems reachable from the empty system through the public mutating
operations (claim C3's closure set). -/
inductive Reach : CS → Prop where
  | empty : Reach CS.empty
  | add (s : CS) (c : Coord) : Reach s → Reach (s.addCoordinate c)
  | removeW (s : CS) (axis : ℕ) (r : ℚ) : Reach s → Reach (s.removeWorldAxis axis r)
  | removeP (s : CS) (axis : ℕ) (r : ℚ) : Reach s → Reach (s.removePixelAxis axis r)
  | transposeR (s : CS) (wo po : List Int) : Reach s → Reach (s.transpose wo po)
  | replace (s : CS) (c : Coord) (which : ℕ) : Reach s → Reach (s.replaceCoordinate c which)
  | restore (s : CS) : Reach s → Reach s.restoreOriginal

/-- A concrete 2×2 linear sub-coordinate used by the concrete instances
below (identity transform, unit increments). -/
def linear2 : Coord :=
  ⟨⟨2, 2, [0, 0], [0, 0], [1, 1], [[1, 0], [0, 1]], ["x", "y"], ["m", "m"], .linear⟩,
   fun p => some p, fun w => some w, fun _ _ _ => true, 7⟩

/-- A sample reachable system: append a 2-axis linear coordinate, remove
world axis 0 (replacement 17), then transpose the pixel axes. -/
def exC3 : CS :=
  ((CS.empty.addCoordinate linear2).removeWorldAxis 0 17).transpose [0] [1, 0]

/-- A sample one-coordinate system for the transpose round-trip. -/
def exC8 : CS := CS.empty.addCoordinate linear2

instance mapsGoodDec (maps : List (List Int)) (n : ℕ) : Decidable (mapsGood maps n) :=
  List.decidablePerm _ _

instance exceptDecEq {ε α : Type} [DecidableEq ε] [DecidableEq α] :
    DecidableEq (Except ε α) := fun a b =>
  match a, b with
  | .ok x, .ok y =>
    if h : x = y then .isTrue (by rw [h]) else .isFalse (by
      intro hc
      exact h (Except.ok.inj hc))
  | .error x, .error y =>
    if h : x = y then .isTrue (by rw [h]) else .isFalse (by
      intro hc
      exact h (Except.error.inj hc))
  | .ok x, .error y => .isFalse (by intro hc; exact Except.noConfusion hc)
  | .error x, .ok y => .isFalse (by intro hc; exact Except.noConfusion hc)

/-- Failure kinds of the composite operations (§7 of the spec; in the
source these are `AlwaysAssert` exceptions). -/
inductive CSErr where
  | dimensionMismatch | invalidIncrement | invalidAxis
deriving DecidableEq, Repr

/-- The per-axis loop of `CoordinateSystem::subImage`: assert
`pixinc(i) ≥ 1` (failure kind `invalidIncrement`), then
`crpix(i) = (crpix(i) − originShift(i)) / pixinc(i)` and
`cdelt(i) = cdelt(i) · pixinc(i)`.  Reading `cdelt` out of range (the
source indexes the world-length increment vector by a pixel index) is
`invalidAxis`. -/
def subImageLoop (shift pixinc : List Int) (idxs : List ℕ) (crpix cdelt : List ℚ) :
    Except CSErr (List ℚ × List ℚ) :=
  match idxs with
  | [] => .ok (crpix, cdelt)
  | i :: rest =>
    if (1 : Int) ≤ pixinc.getD i 0 then
      match crpix[i]?, cdelt[i]? with
      | some cp, some cd =>
        subImageLoop shift pixinc rest
          (crpix.set i ((cp - ((shift.getD i 0 : Int) : ℚ)) / ((pixinc.getD i 0 : Int) : ℚ)))
          (cdelt.set i (cd * ((pixinc.getD i 0 : Int) : ℚ)))
      | _, _ => .error .invalidAxis
    else .error .invalidIncrement

/-- `CoordinateSystem::subImage`: copy the system, shift and scale the
reference pixel and increment per pixel axis, and store them back through
the setters. -/
def CS.subImage (s : CS) (originShift pixinc : List Int) : Except CSErr CS :=
  if originShift.length = s.nP ∧ pixinc.length = s.nP then
    match subImageLoop originShift pixinc (List.range s.nP)
        s.referencePixel s.increment with
    | .ok (crpix, cdelt) => .ok ((s.setReferencePixel crpix).1.setIncrement cdelt).1
    | .error e => .error e
  else .error .dimensionMismatch

/-- Structural well-formedness of a `CoordinateSystem` state: the parallel
tables have one entry per sub-coordinate, and every per-sub-coordinate
vector has the length announced by the sub-coordinate (the source keeps
these sizes in lock-step by construction). -/
def CS.WF (s : CS) : Prop :=
  s.wmaps.length = s.coords.length ∧ s.pmaps.length = s.coords.length ∧
  s.wrep.length = s.coords.length ∧ s.prep.length = s.coords.length ∧
  s.wtmp.length = s.coords.length ∧ s.ptmp.length = s.coords.length ∧
  ∀ i, i < s.coords.length →
    (s.wmaps.getD i []).length = (s.coordAt i).nw ∧
    (s.pmaps.getD i []).length = (s.coordAt i).np ∧
    (s.wrep.getD i []).length = (s.coordAt i).nw ∧
    (s.prep.getD i []).length = (s.coordAt i).np ∧
    (s.wtmp.getD i []).length = (s.coordAt i).nw ∧
    (s.ptmp.getD i []).length = (s.coordAt i).np ∧
    (s.coordAt i).refVal.length = (s.coordAt i).nw ∧
    (s.coordAt i).refPix.length = (s.coordAt i).np ∧
    (s.coordAt i).inc.length = (s.coordAt i).nw ∧
    (s.coordAt i).names.length = (s.coordAt i).nw ∧
    (s.coordAt i).units.length = (s.coordAt i).nw

/-- A 2-axis linear system with reference pixel `(256, 256)` and unit
increments — the concrete system of C6's scenario. -/
def exC6 : CS :=
  CS.empty.addCoordinate
    ⟨⟨2, 2, [0, 0], [256, 256], [1, 1], [[1, 0], [0, 1]], ["x", "y"], ["m", "m"], .linear⟩,
     fun p => some p, fun w => some w, fun _ _ _ => true, 3⟩

/-- One sub-coordinate's share of a composite conversion
(`CoordinateSystem::toWorld` / `toPixel`): its input map, output map,
input replacement values, current input/output scratch vectors, and its
own conversion function. -/
structure Slot where
  inMap : List Int
  outMap : List Int
  inRep : List ℚ
  inTmp : List ℚ
  outTmp : List ℚ
  conv : List ℚ → Option (List ℚ)

instance : Inhabited Slot := ⟨⟨[], [], [], [], [], fun _ => none⟩⟩

/-- The per-sub-coordinate input gather of `toWorld`/`toPixel`: scratch
entry `j` is taken from the caller's vector where the map is exposed and
from the stored replacement value where it is `-1`. -/
def gatherSlot (sl : Slot) (input : List ℚ) : List ℚ :=
  (List.range sl.inMap.length).map (fun j =>
    let w := sl.inMap.getD j (-1)
    if 0 ≤ w then input.getD w.toNat 0 else sl.inRep.getD j 0)

/-- The output-copy loop of `toWorld`/`toPixel`: write scratch entry `j`
to the caller's buffer at the exposed index, skipping removed axes. -/
def writeOutAux (vals : List ℚ) : List Int → ℕ → List ℚ → List ℚ
  | [], _, buf => buf
  | w :: rest, j, buf =>
    writeOutAux vals rest (j + 1)
      (if 0 ≤ w then buf.set w.toNat (vals.getD j 0) else buf)

def writeOut (outMap : List Int) (vals buf : List ℚ) : List ℚ :=
  writeOutAux vals outMap 0 buf

/-- Result of a composite conversion: final per-sub-coordinate scratch
pairs, the caller's buffer, the combined flag, and (instrumentation) for
each sub-coordinate whether its own conversion function was invoked. -/
structure ConvOut where
  tmps : List (List ℚ × List ℚ)
  buf : List ℚ
  ok : Bool
  invoked : List Bool

/-- The sub-coordinate loop of `toWorld` / `toPixel`.  The running flag
is combined as `ok = ToBool(ok && coordinates_p[i]->toWorld(...))`; the
C++ `&&` short-circuits, so the conversion runs only while `ok` still
holds.  On a failed conversion the scratch keeps its previous contents
(what a failing sub-coordinate leaves in the output vector is
unspecified); the output-copy loop runs for every sub-coordinate
regardless. -/
def convertSteps (input : List ℚ) : List Slot → List ℚ → Bool → ConvOut
  | [], buf, ok => ⟨[], buf, ok, []⟩
  | sl :: rest, buf, ok =>
    let gathered := gatherSlot sl input
    let step : List ℚ × Bool :=
      if ok then
        match sl.conv gathered with
        | some w => (w, true)
        | none => (sl.outTmp, false)
      else (sl.outTmp, false)
    let buf2 := writeOut sl.outMap step.1 buf
    let r := convertSteps input rest buf2 step.2
    ⟨(gathered, step.1) :: r.tmps, r.buf, r.ok, ok :: r.invoked⟩

/-- Whether the `i`-th sub-coordinate's own conversion succeeds on its
gathered input (independent of the other sub-coordinates). -/
def succAt (input : List ℚ) (slots : List Slot) (i : ℕ) : Prop :=
  ((slots.getD i default).conv (gatherSlot (slots.getD i default) input)).isSome = true

instance (input : List ℚ) (slots : List Slot) (i : ℕ) : Decidable (succAt input slots i) := by
  rw [succAt]
  infer_instance

/-- The `i`-th sub-coordinate's scratch output after a (successful)
conversion of its gathered input. -/
def freshOut (input : List ℚ) (slots : List Slot) (i : ℕ) : List ℚ :=
  match (slots.getD i default).conv (gatherSlot (slots.getD i default) input) with
  | some w => w
  | none => (slots.getD i default).outTmp

/-- The `i`-th sub-coordinate's scratch output as left by the loop:
fresh when it was invoked, stale otherwise. -/
def outValAt (input : List ℚ) (slots : List Slot) (ok : Bool) (i : ℕ) : List ℚ :=
  if ok = true ∧ ∀ j, j < i → succAt input slots j then freshOut input slots i
  else (slots.getD i default).outTmp

/-- The conversion slots of `CoordinateSystem::toWorld`. -/
def CS.toWorldSlots (s : CS) : List Slot :=
  (List.range s.coords.length).map (fun i =>
    ⟨s.pmaps.getD i [], s.wmaps.getD i [], s.prep.getD i [], s.ptmp.getD i [],
     s.wtmp.getD i [], (s.coordAt i).toWorldF⟩)

/-- The conversion slots of `CoordinateSystem::toPixel`. -/
def CS.toPixelSlots (s : CS) : List Slot :=
  (List.range s.coords.length).map (fun i =>
    ⟨s.wmaps.getD i [], s.pmaps.getD i [], s.wrep.getD i [], s.wtmp.getD i [],
     s.ptmp.getD i [], (s.coordAt i).toPixelF⟩)

/-- `CoordinateSystem::toWorld` (vector form): gather per-coordinate
pixel scratch, invoke the sub-coordinate conversions under the
short-circuiting flag, scatter the world scratch into the caller's
buffer, and return the combined flag (plus instrumentation recording
which sub-coordinate conversions ran). -/
def CS.toWorld (s : CS) (world pixel : List ℚ) : CS × ConvOut :=
  let r := convertSteps pixel s.toWorldSlots world true
  ({ s with ptmp := r.tmps.map Prod.fst, wtmp := r.tmps.map Prod.snd }, r)

/-- `CoordinateSystem::toPixel` (vector form), symmetric to `toWorld`. -/
def CS.toPixel (s : CS) (pixel world : List ℚ) : CS × ConvOut :=
  let r := convertSteps world s.toPixelSlots pixel true
  ({ s with wtmp := r.tmps.map Prod.fst, ptmp := r.tmps.map Prod.snd }, r)

/-- Concrete two-coordinate system (one axis each) whose first
sub-coordinate's conversion always fails and whose second always
succeeds. -/
def exC1 : CS :=
  ⟨[⟨⟨1, 1, [0], [0], [1], [[1]], ["a"], ["m"], .linear⟩,
      fun _ => none, fun _ => none, fun _ _ _ => true, 0⟩,
    ⟨⟨1, 1, [0], [0], [1], [[1]], ["b"], ["m"], .linear⟩,
      fun p => some p, fun w => some w, fun _ _ _ => true, 0⟩],
   [[0], [1]], [[0], [1]], [[0], [0]], [[0], [0]], [[0], [0]], [[0], [0]]⟩

/-- The column cache test of `Coordinate::toWorldMany` / `toPixelMany`:
the flag `same` survives the inner loop only for a non-first column all
of whose entries are `::near` the previous column's
(`if (l==0 || (l!=0 && !::near(...))) same = False`). -/
def sameFlag (l : ℕ) (cur last : List ℚ) : Bool :=
  (List.range cur.length).all
    (fun k => decide (l ≠ 0) && nearQ nearTol (cur.getD k 0) (last.getD k 0))

/-- The column loop shared by `Coordinate::toWorldMany` and
`toPixelMany`: per column, either copy the cached conversion scratch
(when `same` holds) or run the scalar conversion, recording the indices
of failing columns; a failing column's output is left unwritten
(`none`), and the scratch keeps its previous contents. -/
def bulkLoop (conv : List ℚ → Option (List ℚ)) :
    List (List ℚ) → ℕ → List ℚ → List ℚ →
      List (Option (List ℚ)) × List ℕ
  | [], _, _, _ => ([], [])
  | col :: rest, l, last, tmp =>
    if sameFlag l col last then
      let r := bulkLoop conv rest (l + 1) col tmp
      (some tmp :: r.1, r.2)
    else
      match conv col with
      | some w =>
        let r := bulkLoop conv rest (l + 1) col w
        (some w :: r.1, r.2)
      | none =>
        let r := bulkLoop conv rest (l + 1) col tmp
        (none :: r.1, l :: r.2)

/-- `Coordinate::toWorldMany` over a matrix given as its list of
columns.  The initial scratch vectors are uninitialised
`Vector<Double>`s in the source and are modelled as zeros. -/
def Coord.toWorldMany (c : Coord) (cols : List (List ℚ)) :
    List (Option (List ℚ)) × List ℕ :=
  bulkLoop c.toWorldF cols 0 (List.replicate c.np 0) (List.replicate c.nw 0)

/-- `Coordinate::toPixelMany`, symmetric to `toWorldMany`. -/
def Coord.toPixelMany (c : Coord) (cols : List (List ℚ)) :
    List (Option (List ℚ)) × List ℕ :=
  bulkLoop c.toPixelF cols 0 (List.replicate c.nw 0) (List.replicate c.np 0)

/-- No column is `near`-equal to its predecessor, so the bulk loop's
cache never fires (`l` is the first column's index, `last` the column
before it). -/
def noCache : ℕ → List ℚ → List (List ℚ) → Prop
  | _, _, [] => True
  | l, last, col :: rest => sameFlag l col last = false ∧ noCache (l + 1) col rest

/-- Modelled from the spec: the failure columns of a bulk conversion are
exactly the columns on which the scalar conversion fails (indices
starting at `l`). -/
def specFailCols (conv : List ℚ → Option (List ℚ)) : ℕ → List (List ℚ) → List ℕ
  | _, [] => []
  | l, col :: rest =>
    if (conv col).isSome then specFailCols conv (l + 1) rest
    else l :: specFailCols conv (l + 1) rest

/-- One-axis identity coordinate for the bulk-conversion scenario. -/
def exC2 : Coord :=
  ⟨⟨1, 1, [0], [0], [1], [[1]], ["x"], ["m"], .linear⟩,
   fun p => some p, fun w => some w, fun _ _ _ => true, 0⟩


/-- The inner column loop of `CoordinateSystem::setLinearTransform` as
written: `for (uInt k=0; j<ncol; k++)` tests `j`, not `k`, so the guard
never changes inside the loop; `fuel` bounds the iterations we are
willing to run and `none` reports that the fuel ran out with the guard
still true. -/
def setLTinner (wmap pmap : List Int) (xform : List (List ℚ))
    (j ncol : ℕ) : ℕ → ℕ → List ℚ → Option (List ℚ)
  | 0, _, _ => none
  | fuel + 1, k, row =>
    if j < ncol then
      let whichrow := wmap.getD j (-1)
      let whichcol := pmap.getD k (-1)
      let row2 := if 0 ≤ whichrow ∧ 0 ≤ whichcol then
          row.set k ((xform.getD whichrow.toNat []).getD whichcol.toNat 0)
        else row
      setLTinner wmap pmap xform j ncol fuel (k + 1) row2
    else some row

/-- The per-coordinate exclusion list built by `CoordinateSystem::near`:
the positions-in-coordinate of those exclusion pixel axes that
`findPixelAxis` locates in coordinate `i` (invalid entries are simply
not found). -/
def excludeAxesOf (s : CS) (i : ℕ) (excl : List Int) : List Int :=
  excl.filterMap (fun p =>
    match CS.findIn s.pmaps p with
    | some (c, a) => if c = i then some (Int.ofNat a) else none
    | none => none)

/-- The sub-coordinate loop of `CoordinateSystem::near`: check kinds and
maps per coordinate, skip a coordinate all of whose world axes are
removed, and — as the source does — `return` the first live
coordinate's per-coordinate `near` result from inside the loop. -/
def csNearLoop (s o : CS) (excl : List Int) (tol : ℚ) : List ℕ → Bool
  | [] => true
  | i :: rest =>
    if (s.coordAt i).kind ≠ (o.coordAt i).kind then false
    else if s.pmaps.getD i [] ≠ o.pmaps.getD i [] then false
    else if s.wmaps.getD i [] ≠ o.wmaps.getD i [] then false
    else if (s.wmaps.getD i []).all (fun v => decide (v < 0)) then
      csNearLoop s o excl tol rest
    else if (s.wmaps.getD i []).all (fun w =>
        if 0 ≤ w then decide (CS.findIn s.wmaps w = CS.findIn o.wmaps w)
        else true) then
      (s.coordAt i).nearF (o.coordAt i).d (excludeAxesOf s i excl) tol
    else false

/-- `CoordinateSystem::near`. -/
def CS.near (s o : CS) (excl : List Int) (tol : ℚ) : Bool :=
  if s.nCoords ≠ o.nCoords then false
  else if s.nP ≠ o.nP then false
  else if s.nW ≠ o.nW then false
  else csNearLoop s o excl tol (List.range s.nCoords)

/-- Two-coordinate system whose first sub-coordinate's `near` always
holds and whose second's never does. -/
def exC5 : CS :=
  ⟨[⟨⟨1, 1, [0], [0], [1], [[1]], ["a"], ["m"], .linear⟩,
      fun p => some p, fun w => some w, fun _ _ _ => true, 0⟩,
    ⟨⟨1, 1, [0], [0], [1], [[1]], ["b"], ["m"], .linear⟩,
      fun p => some p, fun w => some w, fun _ _ _ => false, 0⟩],
   [[0], [1]], [[0], [1]], [[0], [0]], [[0], [0]], [[0], [0]], [[0], [0]]⟩

/-- Modelled from the spec: the unit algebra behind
`Coordinate::find_scale_factor` — a known unit parses to a dimension
vector and a scale factor (`UnitVal::check` / `getValue` / `getFac`
live outside these two files). -/
def UnitEnv : Type := String → Option (List ℤ × ℚ)

/-- Modelled from the spec: dimension check and scale ratio
`old_scale / new_scale` for one (old, new) unit pair; `none` when a
unit is unknown or the dimensions mismatch. -/
def scaleOf (env : UnitEnv) (o u : String) : Option ℚ :=
  match env o, env u with
  | some (db, fb), some (da, fa) => if db = da then some (fb / fa) else none
  | _, _ => none

/-- The per-axis loop of `Coordinate::find_scale_factor` over the new
and old unit vectors. -/
def fsfLoop (env : UnitEnv) : List String → List String → Except String (List ℚ)
  | [], _ => .ok []
  | _ :: _, [] => .ok []
  | u :: us, o :: os =>
    match env o, env u with
    | some (db, fb), some (da, fa) =>
      if db = da then
        match fsfLoop env us os with
        | .ok rest => .ok (fb / fa :: rest)
        | .error e => .error e
      else .error "Units are not compatible dimensionally"
    | _, _ => .error "Unknown unit - cannot calculate scaling"

/-- `Coordinate::find_scale_factor`. -/
def find_scale_factor (env : UnitEnv) (units old : List String) :
    Except String (List ℚ) :=
  if units.length = old.length then fsfLoop env units old
  else .error "units and oldUnits are different sizes!"

/-- Failure kinds of `Coordinate::setWorldAxisUnits`. -/
inductive UnitErr where
  | wrongLength
  | incompatibleUnit
deriving DecidableEq

/-- `Coordinate::setWorldAxisUnits` (the units vector itself is stored
by the derived class; modelled as part of the same update, and the
derived setters are modelled as succeeding). -/
def Coord.setWorldAxisUnitsQ (env : UnitEnv) (c : Coord)
    (units : List String) : Except UnitErr Coord :=
  if units.length ≠ c.nw then .error .wrongLength
  else if units = c.units then .ok c
  else
    match find_scale_factor env units c.units with
    | .error _ => .error .incompatibleUnit
    | .ok factor =>
      .ok (((c.withInc (List.zipWith (fun a b => a * b) c.inc factor)).withRefVal
            (List.zipWith (fun a b => a * b) c.refVal factor)).withUnits units)

/-- `CoordinateSystem::findCoordinate`: index of the first
sub-coordinate of the given kind, `-1` when there is none. -/
def CS.findCoordinate (s : CS) (k : CKind) : Int :=
  match (List.range s.nCoords).find? (fun i => (s.coordAt i).kind == k) with
  | some i => Int.ofNat i
  | none => -1

/-- The `specAxis` computation of `CoordinateSystem::toFITSHeader`: scan
the world axes, remembering the one living in the (first) spectral
coordinate; the sky coordinate's branch is tested first. -/
def specAxisOf (s : CS) : Int :=
  (List.range s.nW).foldl (fun acc i =>
    let c : Int := match s.findW i with
      | some p => Int.ofNat p.1
      | none => -1
    if c = s.findCoordinate .direction then acc
    else if c = s.findCoordinate .spectral then Int.ofNat i
    else acc) (-1)

/-- The spectral-delegation guard of `toFITSHeader`:
`if (specAxis > 1)` hands the spectral axis keywords to the
`SpectralCoordinate` FITS routine. -/
def toFITSdelegatesSpectral (s : CS) : Bool := decide (1 < specAxisOf s)

/-- A system whose only sub-coordinate is spectral, sitting on world
axis 0. -/
def exC9 : CS :=
  CS.empty.addCoordinate
    ⟨⟨1, 1, [0], [0], [1], [[1]], ["freq"], ["Hz"], .spectral⟩,
     fun p => some p, fun w => some w, fun _ _ _ => true, 0⟩

/-- The `basename` switch of `CoordinateSystem::save`. -/
def basenameOf : CKind → String
  | .linear => "linear"
  | .direction => "direction"
  | .spectral => "spectral"
  | .stokes => "stokes"
  | .tabular => "tabular"
  | .coordsys => "coordsys"

/-- One iteration of the `save` loop: the sub-coordinate's own record
(an opaque payload) under `basename<i>`, then `worldmap<i>`,
`worldreplace<i>`, `pixelmap<i>`, `pixelreplace<i>`. -/
def csSaveStep (s : CS) (i : ℕ) (r : Rec) : Rec :=
  let num := toString i
  ((((r.defineF (basenameOf (s.coordAt i).kind ++ num)
        (.payload (s.coordAt i).ownRec)).defineF
      ("worldmap" ++ num) (.ivec (s.wmaps.getD i []))).defineF
      ("worldreplace" ++ num) (.dvec (s.wrep.getD i []))).defineF
      ("pixelmap" ++ num) (.ivec (s.pmaps.getD i []))).defineF
      ("pixelreplace" ++ num) (.dvec (s.prep.getD i []))

/-- `CoordinateSystem::save`. -/
def CS.save (s : CS) (container : Rec) (fieldName : String) : Rec × Bool :=
  if container.isDefinedB fieldName then (container, false)
  else ((container.defineF fieldName
      (.sub ((List.range s.nCoords).foldl (fun r i => csSaveStep s i r) []))),
    true)


/-- The five fields one `save` iteration appends. -/
def saveBlock (s : CS) (i : ℕ) : Rec :=
  let num := toString i
  [(basenameOf (s.coordAt i).kind ++ num, RVal.payload (s.coordAt i).ownRec),
   ("worldmap" ++ num, RVal.ivec (s.wmaps.getD i [])),
   ("worldreplace" ++ num, RVal.dvec (s.wrep.getD i [])),
   ("pixelmap" ++ num, RVal.ivec (s.pmaps.getD i [])),
   ("pixelreplace" ++ num, RVal.dvec (s.prep.getD i []))]

/-- A two-unit environment (kilometres and metres of the same
dimension) for the unit-scaling scenario. -/
def exEnv : UnitEnv := fun u =>
  if u = "km" then some ([1], 1000)
  else if u = "m" then some ([1], 1)
  else none

/-! ## Axis-map infrastructure

Lemmas about the map tables: reading a position, locating a value
(`findIn`), and the multiset of exposed (non-negative) indices. -/

theorem countExposed_eq_length (maps : List (List Int)) :
    CS.countExposed maps = (exposedVals maps).length := by
  induction maps with
  | nil => rfl
  | cons m rest ih =>
    simp only [CS.countExposed, exposedVals, List.map_cons, List.sum_cons,
      List.flatten_cons, List.filter_append, List.length_append] at *
    omega

theorem exposedVals_append (m1 m2 : List (List Int)) :
    exposedVals (m1 ++ m2) = exposedVals m1 ++ exposedVals m2 := by
  simp [exposedVals, List.flatten_append, List.filter_append]

theorem Get_cons_zero (m : List Int) (rest : List (List Int)) (a : ℕ) :
    Get (m :: rest) 0 a = m[a]? := by
  simp [Get]

theorem Get_cons_succ (m : List Int) (rest : List (List Int)) (c a : ℕ) :
    Get (m :: rest) (c + 1) a = Get rest c a := by
  simp [Get]

/-- `findIn` returns a position actually holding the sought value. -/
theorem Get_findIn {maps : List (List Int)} {v : Int} {c a : ℕ}
    (h : CS.findIn maps v = some (c, a)) : Get maps c a = some v := by
  induction maps generalizing c a with
  | nil => simp [CS.findIn] at h
  | cons m rest ih =>
    rw [CS.findIn] at h
    cases hf : m.findIdx? (fun x => x == v) with
    | some j =>
      rw [hf] at h
      simp only [Option.some.injEq, Prod.mk.injEq] at h
      obtain ⟨rfl, rfl⟩ := h
      obtain ⟨hlt, hval, -⟩ := List.findIdx?_eq_some_iff_getElem.mp hf
      rw [Get_cons_zero, List.getElem?_eq_getElem hlt]
      simpa using hval
    | none =>
      rw [hf] at h
      cases hr : CS.findIn rest v with
      | none => rw [hr] at h; simp at h
      | some p =>
        rw [hr] at h
        simp only [Option.map_some', Option.some.injEq, Prod.mk.injEq] at h
        obtain ⟨hc, ha⟩ := h
        cases c with
        | zero => omega
        | succ c1 =>
          rw [Get_cons_succ]
          have hp : p = (c1, a) := by
            cases p; simp only [Prod.mk.injEq]; omega
          exact ih (hp ▸ hr)

/-- `findIn` succeeds on every value present in the maps. -/
theorem findIn_isSome_of_mem {maps : List (List Int)} {v : Int}
    (h : v ∈ maps.flatten) : (CS.findIn maps v).isSome := by
  induction maps with
  | nil => simp at h
  | cons m rest ih =>
    rw [CS.findIn]
    cases hf : m.findIdx? (fun x => x == v) with
    | some j => simp
    | none =>
      rw [List.flatten_cons, List.mem_append] at h
      rcases h with h | h
      · exfalso
        have := List.findIdx?_eq_none_iff.mp hf v h
        simp at this
      · have := ih h
        cases hr : CS.findIn rest v with
        | none => rw [hr] at this; simp at this
        | some p => simp

/-- Two positions of a list holding the same value, with distinct
indices, witness a count of at least two. -/
theorem two_le_count_of_getElem? {l : List Int} {i j : ℕ} {v : Int} (hij : i < j)
    (hi : l[i]? = some v) (hj : l[j]? = some v) : 2 ≤ l.count v := by
  have hsplit := List.take_append_drop j l
  have hcount : l.count v = (l.take j).count v + (l.drop j).count v := by
    conv_lhs => rw [← hsplit]
    exact List.count_append ..
  have h1 : v ∈ l.take j := by
    have : (l.take j)[i]? = some v := by
      rwa [List.getElem?_take_of_lt hij]
    exact List.getElem?_mem this
  have h2 : v ∈ l.drop j := by
    have : (l.drop j)[0]? = some v := by
      rw [List.getElem?_drop]
      simpa using hj
    exact List.getElem?_mem this
  have c1 := List.count_pos_iff.mpr h1
  have c2 := List.count_pos_iff.mpr h2
  omega

/-- Under the invariant's distinctness, an exposed value sits at a unique
position of the maps. -/
theorem Get_unique {maps : List (List Int)} {v : Int} {c a c1 a1 : ℕ}
    (hn : (exposedVals maps).Nodup) (hv : 0 ≤ v)
    (h1 : Get maps c a = some v) (h2 : Get maps c1 a1 = some v) :
    c = c1 ∧ a = a1 := by
  induction maps generalizing c a c1 a1 with
  | nil => simp [Get] at h1
  | cons m rest ih =>
    have hn' : (m.filter (fun x => decide (0 ≤ x))).Nodup ∧
        (exposedVals rest).Nodup ∧
        ∀ x ∈ m.filter (fun x => decide (0 ≤ x)), x ∉ exposedVals rest := by
      have := hn
      rw [exposedVals, List.flatten_cons, List.filter_append, List.nodup_append] at this
      exact ⟨this.1, this.2.1, fun x hx hx2 => this.2.2 hx hx2⟩
    have memRest : ∀ {cr ar : ℕ}, Get rest cr ar = some v → v ∈ exposedVals rest := by
      intro cr ar hG
      rw [exposedVals, List.mem_filter]
      refine ⟨?_, by simpa using hv⟩
      rcases hrow : rest[cr]? with _ | row
      · simp [Get, hrow] at hG
      · rw [Get, hrow] at hG
        simp only [Option.some_bind] at hG
        exact List.mem_flatten.mpr ⟨row, List.getElem?_mem hrow, List.getElem?_mem hG⟩
    cases c with
    | zero =>
      rw [Get_cons_zero] at h1
      cases c1 with
      | zero =>
        rw [Get_cons_zero] at h2
        refine ⟨rfl, ?_⟩
        by_contra hne
        have hcnt : 2 ≤ m.count v := by
          rcases Nat.lt_or_ge a a1 with h | h
          · exact two_le_count_of_getElem? h h1 h2
          · exact two_le_count_of_getElem? (by omega) h2 h1
        have heq : m.count v = (m.filter (fun x => decide (0 ≤ x))).count v := by
          rw [List.count_filter]
          simp [hv]
        have hle := List.nodup_iff_count_le_one.mp hn'.1 v
        omega
      | succ c1' =>
        exfalso
        rw [Get_cons_succ] at h2
        have hm : v ∈ m.filter (fun x => decide (0 ≤ x)) := by
          rw [List.mem_filter]
          exact ⟨List.getElem?_mem h1, by simpa using hv⟩
        exact hn'.2.2 v hm (memRest h2)
    | succ c' =>
      rw [Get_cons_succ] at h1
      cases c1 with
      | zero =>
        exfalso
        rw [Get_cons_zero] at h2
        have hm : v ∈ m.filter (fun x => decide (0 ≤ x)) := by
          rw [List.mem_filter]
          exact ⟨List.getElem?_mem h2, by simpa using hv⟩
        exact hn'.2.2 v hm (memRest h1)
      | succ c1' =>
        rw [Get_cons_succ] at h2
        obtain ⟨hc, ha⟩ := ih hn'.2.1 h1 h2
        exact ⟨by omega, ha⟩

/-! ## Preservation of the axis-mapping invariant -/

theorem mapsGood_nil : mapsGood [] 0 := by
  simp [mapsGood, exposedVals]

theorem mapsGood_count {maps : List (List Int)} {n : ℕ} (h : mapsGood maps n) :
    CS.countExposed maps = n := by
  rw [countExposed_eq_length]
  simpa using h.length_eq

/-- Appending a freshly numbered row (as `addCoordinate` does) keeps the
exposed indices a permutation of an initial segment. -/
theorem mapsGood_append_fresh {maps : List (List Int)} {n : ℕ} (k : ℕ)
    (h : mapsGood maps n) :
    mapsGood (maps ++ [(List.range k).map (fun i => Int.ofNat (n + i))]) (n + k) := by
  rw [mapsGood, exposedVals_append]
  have hrow : exposedVals [(List.range k).map (fun i => Int.ofNat (n + i))]
      = (List.range k).map (fun i => Int.ofNat (n + i)) := by
    rw [exposedVals]
    simp only [List.flatten, List.append_nil]
    rw [List.filter_eq_self]
    intro v hv
    simp only [List.mem_map] at hv
    obtain ⟨i, -, rfl⟩ := hv
    simp only [decide_eq_true_eq]
    exact Int.ofNat_nonneg _
  rw [hrow, List.range_add, List.map_append]
  refine List.Perm.append (by simpa [mapsGood] using h) ?_
  rw [List.map_map]
  apply List.Perm.of_eq
  apply List.map_congr_left
  intro i hi
  simp [Int.ofNat_add]

/-- Overwriting the position holding exposed value `v` with `-1` removes
exactly one occurrence of `v` from the exposed values. -/
theorem exposedVals_clear {maps : List (List Int)} {c a : ℕ} {v : Int}
    (hg : Get maps c a = some v) (hv : 0 ≤ v) :
    List.Perm (exposedVals maps) (v :: exposedVals (setIn2 maps c a (-1))) := by
  induction maps generalizing c with
  | nil => simp [Get] at hg
  | cons m rest ih =>
    cases c with
    | zero =>
      rw [Get_cons_zero] at hg
      have hsilly : setIn2 (m :: rest) 0 a (-1) = m.set a (-1) :: rest := by
        simp [setIn2]
      rw [hsilly]
      have hrow : List.Perm (m.filter (fun x => decide (0 ≤ x)))
          (v :: (m.set a (-1)).filter (fun x => decide (0 ≤ x))) := by
        clear hsilly ih
        induction m generalizing a with
        | nil => simp at hg
        | cons x t ihm =>
          cases a with
          | zero =>
            simp only [List.getElem?_cons_zero, Option.some.injEq] at hg
            subst hg
            simp [List.filter_cons, hv]
          | succ a' =>
            simp only [List.getElem?_cons_succ] at hg
            have := ihm hg
            rw [List.set_cons_succ]
            by_cases hx : (0 : Int) ≤ x
            · simpa [List.filter_cons, hx] using
                (List.Perm.trans (this.cons x) (List.Perm.swap v x _))
            · simpa [List.filter_cons, hx] using this
      calc exposedVals (m :: rest)
          = m.filter (fun x => decide (0 ≤ x)) ++ exposedVals rest := by
            simp [exposedVals, List.filter_append]
        _ ~ (v :: (m.set a (-1)).filter (fun x => decide (0 ≤ x))) ++ exposedVals rest :=
            List.Perm.append_right _ hrow
        _ = v :: exposedVals (m.set a (-1) :: rest) := by
            simp [exposedVals, List.filter_append]
    | succ c' =>
      rw [Get_cons_succ] at hg
      have hsilly : setIn2 (m :: rest) (c' + 1) a (-1) = m :: setIn2 rest c' a (-1) := by
        simp [setIn2]
      rw [hsilly]
      have hstep := ih hg
      calc exposedVals (m :: rest)
          = m.filter (fun x => decide (0 ≤ x)) ++ exposedVals rest := by
            simp [exposedVals, List.filter_append]
        _ ~ m.filter (fun x => decide (0 ≤ x)) ++ (v :: exposedVals (setIn2 rest c' a (-1))) :=
            List.Perm.append_left _ hstep
        _ ~ v :: (m.filter (fun x => decide (0 ≤ x)) ++ exposedVals (setIn2 rest c' a (-1))) :=
            List.perm_middle
        _ = v :: exposedVals (m :: setIn2 rest c' a (-1)) := by
            simp [exposedVals, List.filter_append]

/-- Mapping a sign-preserving function over every entry maps the exposed
values pointwise. -/
theorem exposedVals_map {maps : List (List Int)} {f : Int → Int}
    (hf : ∀ v, 0 ≤ f v ↔ 0 ≤ v) :
    exposedVals (maps.map (List.map f)) = (exposedVals maps).map f := by
  rw [exposedVals, exposedVals, ← List.map_flatten, List.filter_map]
  congr 1
  apply List.filter_congr
  intro v _
  simp [hf v]

/-- The combined effect of `removeWorldAxis` / `removePixelAxis` on the
maps — clear the located position, then decrement every exposed index
greater than the removed one — shrinks `{0,…,n−1}` to `{0,…,n−2}`. -/
theorem mapsGood_remove {maps : List (List Int)} {n axis : ℕ} {c a : ℕ}
    (h : mapsGood maps n) (hax : axis < n)
    (hg : Get maps c a = some (Int.ofNat axis)) :
    mapsGood ((setIn2 maps c a (-1)).map (List.map (fun v =>
      if v > Int.ofNat axis then v - 1 else v))) (n - 1) := by
  set f : Int → Int := fun v => if v > Int.ofNat axis then v - 1 else v with hf
  have hsign : ∀ v : Int, 0 ≤ f v ↔ 0 ≤ v := by
    intro v
    rw [hf]
    by_cases hc : v > Int.ofNat axis
    · simp only [if_pos hc, Int.ofNat_eq_natCast] at *
      omega
    · simp only [if_neg hc]
  set m : ℕ := n - 1 - axis with hm
  have hn' : n = (axis + 1) + m := by omega
  set A : List Int := (List.range axis).map Int.ofNat with hA
  set B : List Int := ((List.range m).map (fun i => axis + 1 + i)).map Int.ofNat with hB
  have hsplit : (List.range n).map Int.ofNat = A ++ [Int.ofNat axis] ++ B := by
    rw [hn', List.range_add, List.range_succ, hA, hB]
    simp [List.map_append]
  have hmid : List.Perm ((List.range n).map Int.ofNat) (Int.ofNat axis :: (A ++ B)) := by
    rw [hsplit, List.append_assoc]
    exact List.perm_middle
  have hclear := exposedVals_clear hg
    (by simp only [Int.ofNat_eq_natCast]; omega : (0 : Int) ≤ Int.ofNat axis)
  have hE : List.Perm (exposedVals (setIn2 maps c a (-1))) (A ++ B) :=
    List.Perm.cons_inv ((hclear.symm.trans h).trans hmid)
  rw [mapsGood, exposedVals_map hsign]
  have hmapped : List.Perm ((exposedVals (setIn2 maps c a (-1))).map f)
      ((A ++ B).map f) := hE.map f
  have hAf : A.map f = A := by
    rw [hA, List.map_map]
    apply List.map_congr_left
    intro i hi
    rw [List.mem_range] at hi
    simp only [Function.comp_apply, hf]
    rw [if_neg (by simp only [Int.ofNat_eq_natCast]; omega)]
  have hBf : B.map f = ((List.range m).map (fun i => axis + i)).map Int.ofNat := by
    rw [hB]
    simp only [List.map_map]
    apply List.map_congr_left
    intro i hi
    simp only [Function.comp_apply, hf, Int.ofNat_eq_natCast]
    rw [if_pos (by omega)]
    push_cast
    omega
  have htarget : A ++ ((List.range m).map (fun i => axis + i)).map Int.ofNat
      = (List.range (n - 1)).map Int.ofNat := by
    have : n - 1 = axis + m := by omega
    rw [this, List.range_add, List.map_append, hA, List.map_map]
  refine hmapped.trans ?_
  rw [List.map_append, hAf, hBf, htarget]

theorem isPermList_unpack {order : List Int} {n : ℕ}
    (h : CS.isPermList order n = true) :
    order.length = n ∧ (∀ v ∈ order, 0 ≤ v ∧ v < (n : Int)) ∧ order.Nodup := by
  rw [CS.isPermList, Bool.and_eq_true, Bool.and_eq_true] at h
  obtain ⟨⟨h1, h2⟩, h3⟩ := h
  refine ⟨by simpa using h1, ?_, by simpa using h3⟩
  intro v hv
  have := List.all_eq_true.mp h2 v hv
  rw [Bool.and_eq_true] at this
  exact ⟨by simpa using this.1, by simpa using this.2⟩

theorem mapsGood_nodup {maps : List (List Int)} {n : ℕ} (hg : mapsGood maps n) :
    (exposedVals maps).Nodup := by
  rw [List.Perm.nodup_iff hg]
  exact (List.nodup_range n).map (fun a b h => Int.ofNat.inj h)

theorem mem_exposed_of_lt {maps : List (List Int)} {n : ℕ} (hg : mapsGood maps n)
    {v : Int} (h0 : 0 ≤ v) (hlt : v < (n : Int)) : v ∈ exposedVals maps := by
  rw [List.Perm.mem_iff hg]
  simp only [List.mem_map, List.mem_range, Int.ofNat_eq_natCast]
  exact ⟨v.toNat, by omega, by omega⟩

theorem exposed_lt_of_mem {maps : List (List Int)} {n : ℕ} (hg : mapsGood maps n)
    {v : Int} (hv : v ∈ exposedVals maps) : 0 ≤ v ∧ v < (n : Int) := by
  rw [List.Perm.mem_iff hg] at hv
  simp only [List.mem_map, List.mem_range, Int.ofNat_eq_natCast] at hv
  obtain ⟨k, hk, rfl⟩ := hv
  omega

theorem mem_flatten_of_exposed {maps : List (List Int)} {v : Int}
    (h : v ∈ exposedVals maps) : v ∈ maps.flatten :=
  List.mem_of_mem_filter h

theorem mem_exposed_of_getElem? {maps : List (List Int)} {row : List Int}
    {c a : ℕ} {v : Int} (hrow : maps[c]? = some row) (hra : row[a]? = some v)
    (h0 : 0 ≤ v) : v ∈ exposedVals maps := by
  rw [exposedVals, List.mem_filter]
  exact ⟨List.mem_flatten.mpr ⟨row, List.getElem?_mem hrow, List.getElem?_mem hra⟩,
    by simpa using h0⟩

/-- A valid transposition order is itself a permutation of `{0,…,n−1}`. -/
theorem isPermList_perm_range {order : List Int} {n : ℕ}
    (h : CS.isPermList order n = true) :
    List.Perm order ((List.range n).map Int.ofNat) := by
  obtain ⟨hlen, hmem, hnd⟩ := isPermList_unpack h
  have hsub : order ⊆ (List.range n).map Int.ofNat := by
    intro v hv
    obtain ⟨h0, h1⟩ := hmem v hv
    simp only [List.mem_map, List.mem_range, Int.ofNat_eq_natCast]
    exact ⟨v.toNat, by omega, by omega⟩
  refine (hnd.subperm hsub).perm_of_length_le ?_
  simp [hlen]

/-- Characterisation of the axis-moving loop of `transpose`: when the
invariant holds and the order is a valid permutation, each exposed entry
`v` gets relabelled to the position of `v` inside the order, and removed
(`-1`) entries stay put. -/
theorem applyMoves_eq {orig : List (List Int)} {order : List Int} {n : ℕ}
    (hg : mapsGood orig n) (hperm : CS.isPermList order n = true) :
    CS.applyMoves orig order = orig.map (List.map (fun v =>
      if 0 ≤ v then Int.ofNat (order.indexOf v) else v)) := by
  obtain ⟨hlen, hmem, hnd⟩ := isPermList_unpack hperm
  have hnodup := mapsGood_nodup hg
  have key : ∀ m, m ≤ order.length →
      (List.range m).foldl (fun acc i =>
        match CS.findIn orig (order.getD i 0) with
        | some (c, a) => setIn2 acc c a (Int.ofNat i)
        | none => acc) orig
      = orig.map (List.map (fun v =>
          if 0 ≤ v ∧ v ∈ order.take m then Int.ofNat (order.indexOf v) else v)) := by
    intro m hm
    induction m with
    | zero =>
      simp only [List.range_zero, List.foldl_nil, List.take_zero, List.not_mem_nil,
        and_false, if_false]
      have : (fun v : Int => v) = id := rfl
      rw [this]
      simp
    | succ m ih =>
      have hmlt : m < order.length := by omega
      rw [List.range_succ, List.foldl_append, ih (by omega), List.foldl_cons,
          List.foldl_nil]
      set v0 : Int := order.getD m 0 with hv0def
      have hv0 : v0 = order[m] := List.getD_eq_getElem order 0 hmlt
      have hv0mem : v0 ∈ order := hv0 ▸ List.getElem_mem hmlt
      obtain ⟨h00, h0n⟩ := hmem v0 hv0mem
      have hv0exp : v0 ∈ exposedVals orig :=
        mem_exposed_of_lt hg h00 (by omega)
      have hfound := findIn_isSome_of_mem (mem_flatten_of_exposed hv0exp)
      obtain ⟨⟨c, a⟩, hfind⟩ := Option.isSome_iff_exists.mp hfound
      rw [hfind]
      have hGet := Get_findIn hfind
      obtain ⟨row, hrowq, hra⟩ : ∃ row, orig[c]? = some row ∧ row[a]? = some v0 := by
        rw [Get] at hGet
        rcases hr : orig[c]? with _ | row
        · rw [hr] at hGet; simp at hGet
        · rw [hr] at hGet; simp only [Option.some_bind] at hGet
          exact ⟨row, rfl, hGet⟩
      have hclen : c < orig.length := by
        by_contra hc
        rw [List.getElem?_eq_none (by omega)] at hrowq
        exact Option.noConfusion hrowq
      have halen : a < row.length := by
        by_contra hc
        rw [List.getElem?_eq_none (by omega)] at hra
        exact Option.noConfusion hra
      have hidx : order.indexOf v0 = m := by
        rw [hv0]
        exact List.indexOf_getElem hnd m hmlt
      have hmm : v0 ∈ order.take (m + 1) := by
        rw [List.take_succ, List.mem_append, List.getElem?_eq_getElem hmlt]
        right
        simp [hv0]
      have hfsame : ∀ v : Int, v ≠ v0 →
          (if 0 ≤ v ∧ v ∈ order.take (m + 1) then Int.ofNat (order.indexOf v) else v)
          = (if 0 ≤ v ∧ v ∈ order.take m then Int.ofNat (order.indexOf v) else v) := by
        intro v hne
        have hiff : v ∈ order.take (m + 1) ↔ v ∈ order.take m := by
          rw [List.take_succ, List.mem_append]
          constructor
          · rintro (h | h)
            · exact h
            · exfalso
              rw [List.getElem?_eq_getElem hmlt] at h
              simp only [Option.toList_some, List.mem_singleton] at h
              exact hne (h.trans hv0.symm)
          · exact Or.inl
        rw [if_congr (and_congr_right fun _ => hiff) rfl rfl]
      -- row-level rewrite
      apply List.ext_getElem?
      intro c1
      simp only [setIn2]
      have htm : (orig.map (List.map (fun v =>
          if 0 ≤ v ∧ v ∈ order.take m then Int.ofNat (order.indexOf v) else v))).getD c []
          = row.map (fun v =>
            if 0 ≤ v ∧ v ∈ order.take m then Int.ofNat (order.indexOf v) else v) := by
        rw [List.getD, List.get?_eq_getElem?, List.getElem?_map, hrowq]
        simp
      by_cases hcc : c1 = c
      · rw [hcc]
        rw [List.getElem?_set_self (by simpa using hclen), htm, List.getElem?_map, hrowq]
        simp only [Option.map_some']
        congr 1
        apply List.ext_getElem?
        intro a1
        by_cases haa : a1 = a
        · rw [haa]
          rw [List.getElem?_set_self (by simpa using halen), List.getElem?_map, hra]
          simp only [Option.map_some']
          congr 1
          rw [if_pos ⟨h00, hmm⟩, hidx]
        · rw [List.getElem?_set_ne (fun h => haa h.symm), List.getElem?_map,
            List.getElem?_map]
          rcases hv1 : row[a1]? with _ | v1
          · simp
          · simp only [Option.map_some']
            congr 1
            by_cases h0v : (0 : Int) ≤ v1
            · have hne : v1 ≠ v0 := by
                intro hEq
                have hG1 : Get orig c a1 = some v0 := by
                  rw [Get, hrowq]
                  simp [hv1, hEq]
                have hG2 : Get orig c a = some v0 := by
                  rw [Get, hrowq]
                  simpa using hra
                obtain ⟨-, ha⟩ := Get_unique hnodup h00 hG1 hG2
                exact haa ha
              exact (hfsame v1 hne).symm
            · rw [if_neg (fun h => h0v h.1), if_neg (fun h => h0v h.1)]
      · rw [List.getElem?_set_ne (fun h => hcc h.symm), List.getElem?_map,
          List.getElem?_map]
        rcases hr1 : orig[c1]? with _ | row1
        · simp
        · simp only [Option.map_some']
          congr 1
          apply List.map_congr_left
          intro v1 hv1mem
          by_cases h0v : (0 : Int) ≤ v1
          · have hne : v1 ≠ v0 := by
              intro hEq
              obtain ⟨a1, ha1, hva⟩ := List.getElem_of_mem hv1mem
              have hG1 : Get orig c1 a1 = some v0 := by
                rw [Get, hr1]
                simp [List.getElem?_eq_getElem ha1, hva, hEq]
              have hG2 : Get orig c a = some v0 := by
                rw [Get, hrowq]
                simpa using hra
              obtain ⟨hc1, -⟩ := Get_unique hnodup h00 hG1 hG2
              exact hcc hc1
            exact (hfsame v1 hne).symm
          · rw [if_neg (fun h => h0v h.1), if_neg (fun h => h0v h.1)]
  have hfin := key order.length (le_refl _)
  rw [CS.applyMoves, hfin]
  apply List.map_congr_left
  intro row hrow
  apply List.map_congr_left
  intro v hv
  by_cases h0v : (0 : Int) ≤ v
  · have hexp : v ∈ exposedVals orig := by
      rw [exposedVals, List.mem_filter]
      exact ⟨List.mem_flatten.mpr ⟨row, hrow, hv⟩, by simpa using h0v⟩
    have hvin : v ∈ order := by
      obtain ⟨-, hlt⟩ := exposed_lt_of_mem hg hexp
      rw [List.Perm.mem_iff (isPermList_perm_range hperm)]
      simp only [List.mem_map, List.mem_range, Int.ofNat_eq_natCast]
      exact ⟨v.toNat, by omega, by omega⟩
    rw [List.take_length, if_pos ⟨h0v, hvin⟩, if_pos h0v]
  · rw [if_neg (fun h => h0v h.1), if_neg h0v]

/-- Relabelling the exposed entries along a valid permutation preserves
the axis-mapping invariant. -/
theorem mapsGood_applyMoves {orig : List (List Int)} {order : List Int} {n : ℕ}
    (hg : mapsGood orig n) (hperm : CS.isPermList order n = true) :
    mapsGood (CS.applyMoves orig order) n := by
  obtain ⟨hlen, hmem, hnd⟩ := isPermList_unpack hperm
  rw [applyMoves_eq hg hperm]
  set f : Int → Int := fun v => if 0 ≤ v then Int.ofNat (order.indexOf v) else v with hfdef
  have hsign : ∀ v : Int, 0 ≤ f v ↔ 0 ≤ v := by
    intro v
    rw [hfdef]
    by_cases h0 : (0 : Int) ≤ v
    · simp only [if_pos h0, h0, iff_true]
      exact Int.ofNat_nonneg _
    · simp only [if_neg h0]
  rw [mapsGood, exposedVals_map hsign]
  have hordermap : order.map (fun v => Int.ofNat (order.indexOf v))
      = (List.range order.length).map Int.ofNat := by
    apply List.ext_getElem (by simp)
    intro i h1 h2
    simp only [List.getElem_map, List.getElem_range]
    congr 1
    exact List.indexOf_getElem hnd i (by simpa using h1)
  have hperm2 := isPermList_perm_range hperm
  have hchain : List.Perm ((exposedVals orig).map f)
      (((List.range n).map Int.ofNat).map f) := hg.map f
  refine hchain.trans ?_
  have hstep : ((List.range n).map Int.ofNat).map f
      = ((List.range n).map Int.ofNat).map (fun v => Int.ofNat (order.indexOf v)) := by
    apply List.map_congr_left
    intro v hv
    simp only [List.mem_map, List.mem_range] at hv
    obtain ⟨k, -, rfl⟩ := hv
    rw [hfdef]
    exact if_pos (Int.ofNat_nonneg k)
  rw [hstep]
  have := (hperm2.symm.map (fun v => Int.ofNat (order.indexOf v)))
  refine this.trans ?_
  rw [hordermap, hlen]

/-! ## Reachable systems and the C3 invariant -/

theorem Inv_empty : CS.empty.Inv := by
  constructor <;> exact mapsGood_nil

theorem Inv_addCoordinate (s : CS) (c : Coord) (h : s.Inv) :
    (s.addCoordinate c).Inv := by
  obtain ⟨hw, hp⟩ := h
  constructor
  · have hgood := mapsGood_append_fresh c.nw hw
    have hcnt := mapsGood_count hgood
    show mapsGood (s.addCoordinate c).wmaps (CS.countExposed (s.addCoordinate c).wmaps)
    have : (s.addCoordinate c).wmaps
        = s.wmaps ++ [(List.range c.nw).map (fun i => Int.ofNat (s.nW + i))] := rfl
    rw [this, hcnt]
    exact hgood
  · have hgood := mapsGood_append_fresh c.np hp
    have hcnt := mapsGood_count hgood
    show mapsGood (s.addCoordinate c).pmaps (CS.countExposed (s.addCoordinate c).pmaps)
    have : (s.addCoordinate c).pmaps
        = s.pmaps ++ [(List.range c.np).map (fun i => Int.ofNat (s.nP + i))] := rfl
    rw [this, hcnt]
    exact hgood

theorem Inv_removeWorldAxis (s : CS) (axis : ℕ) (r : ℚ) (h : s.Inv) :
    (s.removeWorldAxis axis r).Inv := by
  obtain ⟨hw, hp⟩ := h
  by_cases hax : axis < s.nW
  · have hexp : Int.ofNat axis ∈ exposedVals s.wmaps :=
      mem_exposed_of_lt hw (Int.ofNat_nonneg _)
        (by rw [Int.ofNat_eq_natCast]; omega)
    have hfound := findIn_isSome_of_mem (mem_flatten_of_exposed hexp)
    obtain ⟨⟨c, a⟩, hfind⟩ := Option.isSome_iff_exists.mp hfound
    have hGet := Get_findIn hfind
    have hgood := mapsGood_remove hw hax hGet
    have hfind' : s.findW axis = some (c, a) := hfind
    rw [CS.removeWorldAxis, if_pos hax, hfind']
    constructor
    · show mapsGood _ (CS.countExposed _)
      rw [mapsGood_count hgood]
      exact hgood
    · exact hp
  · rw [CS.removeWorldAxis, if_neg hax]
    exact ⟨hw, hp⟩

theorem Inv_removePixelAxis (s : CS) (axis : ℕ) (r : ℚ) (h : s.Inv) :
    (s.removePixelAxis axis r).Inv := by
  obtain ⟨hw, hp⟩ := h
  by_cases hax : axis < s.nP
  · have hexp : Int.ofNat axis ∈ exposedVals s.pmaps :=
      mem_exposed_of_lt hp (Int.ofNat_nonneg _)
        (by rw [Int.ofNat_eq_natCast]; omega)
    have hfound := findIn_isSome_of_mem (mem_flatten_of_exposed hexp)
    obtain ⟨⟨c, a⟩, hfind⟩ := Option.isSome_iff_exists.mp hfound
    have hGet := Get_findIn hfind
    have hgood := mapsGood_remove hp hax hGet
    have hfind' : s.findP axis = some (c, a) := hfind
    rw [CS.removePixelAxis, if_pos hax, hfind']
    constructor
    · exact hw
    · show mapsGood _ (CS.countExposed _)
      rw [mapsGood_count hgood]
      exact hgood
  · rw [CS.removePixelAxis, if_neg hax]
    exact ⟨hw, hp⟩

theorem Inv_transpose (s : CS) (wo po : List Int) (h : s.Inv) :
    (s.transpose wo po).Inv := by
  obtain ⟨hw, hp⟩ := h
  rw [CS.transpose]
  by_cases hv : (CS.isPermList wo s.nW && CS.isPermList po s.nP) = true
  · rw [if_pos hv]
    rw [Bool.and_eq_true] at hv
    have hgw := mapsGood_applyMoves hw hv.1
    have hgp := mapsGood_applyMoves hp hv.2
    constructor
    · show mapsGood _ (CS.countExposed _)
      rw [mapsGood_count hgw]
      exact hgw
    · show mapsGood _ (CS.countExposed _)
      rw [mapsGood_count hgp]
      exact hgp
  · rw [if_neg hv]
    exact ⟨hw, hp⟩

theorem Inv_replaceCoordinate (s : CS) (c : Coord) (which : ℕ) (h : s.Inv) :
    (s.replaceCoordinate c which).Inv := by
  rw [CS.replaceCoordinate]
  split
  · exact h
  · exact h

theorem Inv_restoreOriginal (s : CS) (h : s.Inv) : s.restoreOriginal.Inv := by
  rw [CS.restoreOriginal]
  have : ∀ (cs : List Coord) (t : CS), t.Inv → (cs.foldl CS.addCoordinate t).Inv := by
    intro cs
    induction cs with
    | nil => intro t ht; exact ht
    | cons c rest ih =>
      intro t ht
      exact ih _ (Inv_addCoordinate t c ht)
  exact this s.coords CS.empty Inv_empty

/-- Every reachable system satisfies the invariant. -/
theorem Reach_Inv {s : CS} (h : Reach s) : s.Inv := by
  induction h with
  | empty => exact Inv_empty
  | add s c _ ih => exact Inv_addCoordinate s c ih
  | removeW s axis r _ ih => exact Inv_removeWorldAxis s axis r ih
  | removeP s axis r _ ih => exact Inv_removePixelAxis s axis r ih
  | transposeR s wo po _ ih => exact Inv_transpose s wo po ih
  | replace s c which _ ih => exact Inv_replaceCoordinate s c which ih
  | restore s _ ih => exact Inv_restoreOriginal s ih

/-- **C3.**  For every CoordinateSystem reachable from the empty system by
any sequence of `addCoordinate`, `removeWorldAxis`, `removePixelAxis`,
`transpose` (valid permutations), `replaceCoordinate` and
`restoreOriginal`, the non-negative entries across all world maps are
pairwise distinct and form exactly the set `{0, …, nWorldAxes−1}`, and
the non-negative entries across all pixel maps form exactly
`{0, …, nPixelAxes−1}`. -/
theorem C3_mapping_invariant {s : CS} (h : Reach s) :
    ((exposedVals s.wmaps).Nodup ∧
      ∀ v : Int, v ∈ exposedVals s.wmaps ↔ 0 ≤ v ∧ v < (s.nW : Int)) ∧
    ((exposedVals s.pmaps).Nodup ∧
      ∀ v : Int, v ∈ exposedVals s.pmaps ↔ 0 ≤ v ∧ v < (s.nP : Int)) := by
  obtain ⟨hw, hp⟩ := Reach_Inv h
  refine ⟨⟨mapsGood_nodup hw, fun v => ?_⟩, ⟨mapsGood_nodup hp, fun v => ?_⟩⟩
  · exact ⟨fun hv => exposed_lt_of_mem hw hv,
      fun hv => mem_exposed_of_lt hw hv.1 hv.2⟩
  · exact ⟨fun hv => exposed_lt_of_mem hp hv,
      fun hv => mem_exposed_of_lt hp hv.1 hv.2⟩

/-- Witness for C3: the invariant holds on the concrete reachable system
`exC3` (append a 2-axis coordinate, remove a world axis, transpose the
pixel axes). -/
theorem C3_mapping_invariant_witness :
    ((exposedVals exC3.wmaps).Nodup ∧
      ∀ v : Int, v ∈ exposedVals exC3.wmaps ↔ 0 ≤ v ∧ v < (exC3.nW : Int)) ∧
    ((exposedVals exC3.pmaps).Nodup ∧
      ∀ v : Int, v ∈ exposedVals exC3.pmaps ↔ 0 ≤ v ∧ v < (exC3.nP : Int)) :=
  C3_mapping_invariant
    (Reach.transposeR _ _ _ (Reach.removeW _ _ _ (Reach.add _ _ Reach.empty)))

/-! ## C8: transpose round trip -/

theorem transpose_eq_of_valid {s : CS} {a b : List Int}
    (ha : CS.isPermList a s.nW = true) (hb : CS.isPermList b s.nP = true) :
    s.transpose a b
      = { s with wmaps := CS.applyMoves s.wmaps a, pmaps := CS.applyMoves s.pmaps b } := by
  rw [CS.transpose, if_pos (by rw [ha, hb]; rfl)]

/-- Undoing a relabelling along the inverse permutation restores the maps. -/
theorem applyMoves_inverse {maps : List (List Int)} {σ σi : List Int} {n : ℕ}
    (hg : mapsGood maps n)
    (hσ : CS.isPermList σ n = true) (hσi : CS.isPermList σi n = true)
    (hinv : ∀ j, j < n → σi.getD ((σ.getD j 0).toNat) 0 = Int.ofNat j) :
    CS.applyMoves (CS.applyMoves maps σ) σi = maps := by
  obtain ⟨hlenσ, hmemσ, hndσ⟩ := isPermList_unpack hσ
  obtain ⟨hlenσi, hmemσi, hndσi⟩ := isPermList_unpack hσi
  rw [applyMoves_eq (mapsGood_applyMoves hg hσ) hσi, applyMoves_eq hg hσ,
    List.map_map]
  have : ∀ row ∈ maps, (List.map (fun v =>
        if 0 ≤ v then Int.ofNat (σi.indexOf v) else v) ∘ List.map (fun v =>
        if 0 ≤ v then Int.ofNat (σ.indexOf v) else v)) row = row := by
    intro row hrow
    simp only [Function.comp_apply, List.map_map]
    conv_rhs => rw [← List.map_id row]
    apply List.map_congr_left
    intro v hv
    simp only [Function.comp_apply, id]
    by_cases h0 : (0 : Int) ≤ v
    · rw [if_pos h0]
      have hvexp : v ∈ exposedVals maps := by
        rw [exposedVals, List.mem_filter]
        exact ⟨List.mem_flatten.mpr ⟨row, hrow, hv⟩, by simpa using h0⟩
      obtain ⟨-, hvn⟩ := exposed_lt_of_mem hg hvexp
      have hvmem : v ∈ σ := by
        rw [List.Perm.mem_iff (isPermList_perm_range hσ)]
        simp only [List.mem_map, List.mem_range, Int.ofNat_eq_natCast]
        exact ⟨v.toNat, by omega, by omega⟩
      have hjlt : σ.indexOf v < σ.length := List.indexOf_lt_length.mpr hvmem
      have hσj : σ.getD (σ.indexOf v) 0 = v := by
        rw [List.getD_eq_getElem σ 0 hjlt]
        exact List.getElem_indexOf hjlt
      have hji := hinv (σ.indexOf v) (by omega)
      rw [hσj] at hji
      have hvtlt : v.toNat < σi.length := by omega
      rw [List.getD_eq_getElem σi 0 hvtlt] at hji
      have hidx : σi.indexOf (Int.ofNat (σ.indexOf v)) = v.toNat := by
        rw [← hji]
        exact List.indexOf_getElem hndσi v.toNat hvtlt
      split_ifs with hcond
      · rw [hidx]
        simp only [Int.ofNat_eq_natCast]
        omega
      · exact absurd (Int.ofNat_nonneg (σ.indexOf v)) hcond
    · rw [if_neg h0, if_neg h0]
  calc maps.map _ = maps.map id := List.map_congr_left this
    _ = maps := List.map_id maps

/-- The state-level round trip: two transpositions along mutually inverse
valid permutations restore the CoordinateSystem exactly. -/
theorem transpose_twice_eq {s : CS} {σ π σi πi : List Int} (hInv : s.Inv)
    (hσ : CS.isPermList σ s.nW = true) (hσi : CS.isPermList σi s.nW = true)
    (hπ : CS.isPermList π s.nP = true) (hπi : CS.isPermList πi s.nP = true)
    (hinvσ : ∀ j, j < s.nW → σi.getD ((σ.getD j 0).toNat) 0 = Int.ofNat j)
    (hinvπ : ∀ j, j < s.nP → πi.getD ((π.getD j 0).toNat) 0 = Int.ofNat j) :
    (s.transpose σ π).transpose σi πi = s := by
  obtain ⟨hw, hp⟩ := hInv
  have hw1 := mapsGood_applyMoves hw hσ
  have hp1 := mapsGood_applyMoves hp hπ
  rw [transpose_eq_of_valid hσ hπ]
  have hσi' : CS.isPermList σi
      ({ s with wmaps := CS.applyMoves s.wmaps σ,
                pmaps := CS.applyMoves s.pmaps π } : CS).nW = true := by
    show CS.isPermList σi (CS.countExposed (CS.applyMoves s.wmaps σ)) = true
    rw [mapsGood_count hw1]
    exact hσi
  have hπi' : CS.isPermList πi
      ({ s with wmaps := CS.applyMoves s.wmaps σ,
                pmaps := CS.applyMoves s.pmaps π } : CS).nP = true := by
    show CS.isPermList πi (CS.countExposed (CS.applyMoves s.pmaps π)) = true
    rw [mapsGood_count hp1]
    exact hπi
  rw [transpose_eq_of_valid hσi' hπi']
  have e1 : CS.applyMoves (CS.applyMoves s.wmaps σ) σi = s.wmaps :=
    applyMoves_inverse hw hσ hσi hinvσ
  have e2 : CS.applyMoves (CS.applyMoves s.pmaps π) πi = s.pmaps :=
    applyMoves_inverse hp hπ hπi hinvπ
  simp only [e1, e2]

/-- **C8.**  For every CoordinateSystem satisfying the axis-map invariant
and every valid permutation `σ` of its exposed world axes and `π` of its
exposed pixel axes, applying `transpose σ π` and then `transpose σ⁻¹ π⁻¹`
leaves `referenceValue`, `referencePixel`, `increment`,
`linearTransform`, `worldAxisNames` and `worldAxisUnits` pointwise
identical to their values before the two calls. -/
theorem C8_transpose_roundtrip {s : CS} {σ π σi πi : List Int} (hInv : s.Inv)
    (hσ : CS.isPermList σ s.nW = true) (hσi : CS.isPermList σi s.nW = true)
    (hπ : CS.isPermList π s.nP = true) (hπi : CS.isPermList πi s.nP = true)
    (hinvσ : ∀ j, j < s.nW → σi.getD ((σ.getD j 0).toNat) 0 = Int.ofNat j)
    (hinvπ : ∀ j, j < s.nP → πi.getD ((π.getD j 0).toNat) 0 = Int.ofNat j) :
    ((s.transpose σ π).transpose σi πi).referenceValue = s.referenceValue ∧
    ((s.transpose σ π).transpose σi πi).referencePixel = s.referencePixel ∧
    ((s.transpose σ π).transpose σi πi).increment = s.increment ∧
    ((s.transpose σ π).transpose σi πi).linearTransform = s.linearTransform ∧
    ((s.transpose σ π).transpose σi πi).worldAxisNames = s.worldAxisNames ∧
    ((s.transpose σ π).transpose σi πi).worldAxisUnits = s.worldAxisUnits := by
  have heq := transpose_twice_eq hInv hσ hσi hπ hπi hinvσ hinvπ
  rw [heq]
  exact ⟨rfl, rfl, rfl, rfl, rfl, rfl⟩

/-- Witness for C8: a 2-axis linear system transposed twice along the
swap `[1,0]` (its own inverse). -/
theorem C8_transpose_roundtrip_witness :
    ((exC8.transpose [1, 0] [1, 0]).transpose [1, 0] [1, 0]).referenceValue
        = exC8.referenceValue ∧
    ((exC8.transpose [1, 0] [1, 0]).transpose [1, 0] [1, 0]).referencePixel
        = exC8.referencePixel ∧
    ((exC8.transpose [1, 0] [1, 0]).transpose [1, 0] [1, 0]).increment
        = exC8.increment ∧
    ((exC8.transpose [1, 0] [1, 0]).transpose [1, 0] [1, 0]).linearTransform
        = exC8.linearTransform ∧
    ((exC8.transpose [1, 0] [1, 0]).transpose [1, 0] [1, 0]).worldAxisNames
        = exC8.worldAxisNames ∧
    ((exC8.transpose [1, 0] [1, 0]).transpose [1, 0] [1, 0]).worldAxisUnits
        = exC8.worldAxisUnits :=
  C8_transpose_roundtrip (by constructor <;> decide) (by decide) (by decide)
    (by decide) (by decide) (by decide) (by decide)

/-! ## Setter/getter plumbing -/

theorem getD_eq_q {α : Type} (l : List α) (n : ℕ) (d : α) :
    l.getD n d = (l[n]?).getD d := by
  rw [List.getD, List.get?_eq_getElem?]

theorem getD_eq_getElem {α : Type} (l : List α) (j : ℕ) (d : α) (h : j < l.length) :
    l.getD j d = l[j] := by
  rw [getD_eq_q, List.getElem?_eq_getElem h]
  rfl

theorem getElem?_mapIdxF {α β : Type} (l : List α) (f : ℕ → α → β) (i : ℕ) :
    (l.mapIdx f)[i]? = (l[i]?).map (f i) := by
  rcases Nat.lt_or_ge i l.length with h | h
  · rw [List.getElem?_eq_getElem (by simpa [List.length_mapIdx] using h),
        List.getElem?_eq_getElem h]
    simp only [Option.map_some']
    congr 1
    have := List.get_mapIdx l f i h
    simpa [List.get_eq_getElem] using this
  · rw [List.getElem?_eq_none (by simpa [List.length_mapIdx] using h),
        List.getElem?_eq_none h]
    simp

theorem scatterVec_length {α : Type} (map : List Int) (cur full : List α) (d : α) :
    (scatterVec map cur full d).length = cur.length := by
  simp [scatterVec]

theorem scatterVec_getElem? {α : Type} (map : List Int) (cur full : List α) (d : α)
    (a : ℕ) (ha : a < cur.length) :
    (scatterVec map cur full d)[a]? = some
      (let which := map.getD a (-1)
       if 0 ≤ which then full.getD which.toNat d else cur.getD a d) := by
  rw [scatterVec, List.getElem?_map,
    List.getElem?_eq_getElem (by simpa using ha)]
  simp

/-- The world-derived getters ignore any per-coordinate rewrite that
preserves the read field. -/
theorem gatherW_mapCoords {α : Type} (s : CS) (g : ℕ → Coord → Coord)
    (f : Coord → List α) (d : α) (hpres : ∀ i c, f (g i c) = f c) :
    gatherW { s with coords := s.coords.mapIdx g } f d = gatherW s f d := by
  set t : CS := { s with coords := s.coords.mapIdx g } with ht
  unfold gatherW
  have h1 : t.nW = s.nW := rfl
  rw [h1]
  apply List.map_congr_left
  intro k hk
  have h2 : t.findW k = s.findW k := rfl
  rw [h2]
  cases hfw : s.findW k with
  | none => rfl
  | some p =>
    obtain ⟨c, a⟩ := p
    show (f (t.coordAt c)).getD a d = (f (s.coordAt c)).getD a d
    have h3 : t.coordAt c = ((s.coords[c]?).map (g c)).getD default := by
      show (s.coords.mapIdx g).getD c default = _
      rw [getD_eq_q, getElem?_mapIdxF]
    rw [h3]
    rcases hc : s.coords[c]? with _ | c0
    · have h4 : s.coordAt c = default := by
        rw [CS.coordAt, getD_eq_q, hc]
        rfl
      rw [h4]
      rfl
    · have h4 : s.coordAt c = c0 := by
        rw [CS.coordAt, getD_eq_q, hc]
        rfl
      rw [h4]
      simp only [Option.map_some', Option.getD_some, hpres]

/-- Pixel analogue of `gatherW_mapCoords`. -/
theorem gatherP_mapCoords {α : Type} (s : CS) (g : ℕ → Coord → Coord)
    (f : Coord → List α) (d : α) (hpres : ∀ i c, f (g i c) = f c) :
    gatherP { s with coords := s.coords.mapIdx g } f d = gatherP s f d := by
  set t : CS := { s with coords := s.coords.mapIdx g } with ht
  unfold gatherP
  have h1 : t.nP = s.nP := rfl
  rw [h1]
  apply List.map_congr_left
  intro k hk
  have h2 : t.findP k = s.findP k := rfl
  rw [h2]
  cases hfw : s.findP k with
  | none => rfl
  | some p =>
    obtain ⟨c, a⟩ := p
    show (f (t.coordAt c)).getD a d = (f (s.coordAt c)).getD a d
    have h3 : t.coordAt c = ((s.coords[c]?).map (g c)).getD default := by
      show (s.coords.mapIdx g).getD c default = _
      rw [getD_eq_q, getElem?_mapIdxF]
    rw [h3]
    rcases hc : s.coords[c]? with _ | c0
    · have h4 : s.coordAt c = default := by
        rw [CS.coordAt, getD_eq_q, hc]
        rfl
      rw [h4]
      rfl
    · have h4 : s.coordAt c = c0 := by
        rw [CS.coordAt, getD_eq_q, hc]
        rfl
      rw [h4]
      simp only [Option.map_some', Option.getD_some, hpres]

/-- `linearTransform` ignores per-coordinate rewrites preserving `xform`. -/
theorem linearTransform_mapCoords (s : CS) (g : ℕ → Coord → Coord)
    (hpres : ∀ i c, (g i c).xform = c.xform) :
    ({ s with coords := s.coords.mapIdx g } : CS).linearTransform
      = s.linearTransform := by
  set t : CS := { s with coords := s.coords.mapIdx g } with ht
  unfold CS.linearTransform
  have h1 : t.nW = s.nW := rfl
  have h2 : t.nP = s.nP := rfl
  rw [h1, h2]
  apply List.map_congr_left
  intro i hi
  apply List.map_congr_left
  intro j hj
  have h3 : t.findW i = s.findW i := rfl
  have h4 : t.findP j = s.findP j := rfl
  rw [h3, h4]
  cases hfw : s.findW i with
  | none => rfl
  | some pw =>
    cases hfp : s.findP j with
    | none => rfl
    | some pp =>
      obtain ⟨wc, wa⟩ := pw
      obtain ⟨pc, pa⟩ := pp
      show (if wc = pc then ((t.coordAt wc).xform.getD wa []).getD pa 0 else 0)
          = (if wc = pc then ((s.coordAt wc).xform.getD wa []).getD pa 0 else 0)
      by_cases hcc : wc = pc
      · rw [if_pos hcc, if_pos hcc]
        have h5 : t.coordAt wc = ((s.coords[wc]?).map (g wc)).getD default := by
          show (s.coords.mapIdx g).getD wc default = _
          rw [getD_eq_q, getElem?_mapIdxF]
        rw [h5]
        rcases hc : s.coords[wc]? with _ | c0
        · have h6 : s.coordAt wc = default := by
            rw [CS.coordAt, getD_eq_q, hc]
            rfl
          rw [h6]
          rfl
        · have h6 : s.coordAt wc = c0 := by
            rw [CS.coordAt, getD_eq_q, hc]
            rfl
          rw [h6]
          simp only [Option.map_some', Option.getD_some, hpres]
      · rw [if_neg hcc, if_neg hcc]

/-- Storing a pixel-length vector through `setReferencePixel` and reading
it back through `referencePixel` returns it unchanged. -/
theorem referencePixel_setReferencePixel {s : CS} {v : List ℚ}
    (hp : mapsGood s.pmaps s.nP)
    (hlenc : s.pmaps.length ≤ s.coords.length)
    (hrow : ∀ i, i < s.coords.length →
        (s.pmaps.getD i []).length ≤ (s.coordAt i).refPix.length)
    (hlen : v.length = s.nP) :
    (s.setReferencePixel v).1.referencePixel = v := by
  have hnp : (s.setReferencePixel v).1.referencePixel.length = s.nP := by
    show (gatherP _ _ _).length = _
    simp [gatherP]
    rfl
  apply List.ext_getElem (by rw [hnp, hlen])
  intro k hk1 hk2
  have hkn : k < s.nP := by rw [hnp] at hk1; exact hk1
  show (gatherP (s.setReferencePixel v).1 Coord.refPix 0)[k] = v[k]
  have hexp : Int.ofNat k ∈ exposedVals s.pmaps :=
    mem_exposed_of_lt hp (Int.ofNat_nonneg _) (by rw [Int.ofNat_eq_natCast]; omega)
  have hfound := findIn_isSome_of_mem (mem_flatten_of_exposed hexp)
  obtain ⟨⟨c, a⟩, hfind⟩ := Option.isSome_iff_exists.mp hfound
  have hGet := Get_findIn hfind
  obtain ⟨row, hrowq, hra⟩ : ∃ row, s.pmaps[c]? = some row ∧ row[a]? = some (Int.ofNat k) := by
    rw [Get] at hGet
    rcases hr : s.pmaps[c]? with _ | row
    · rw [hr] at hGet; simp at hGet
    · rw [hr] at hGet
      simp only [Option.some_bind] at hGet
      exact ⟨row, rfl, hGet⟩
  have hclen : c < s.pmaps.length := by
    by_contra hcon
    rw [List.getElem?_eq_none (by omega)] at hrowq
    exact Option.noConfusion hrowq
  have halen : a < row.length := by
    by_contra hcon
    rw [List.getElem?_eq_none (by omega)] at hra
    exact Option.noConfusion hra
  have hcc : c < s.coords.length := by omega
  have hgd : s.pmaps.getD c [] = row := by
    rw [getD_eq_q, hrowq]
    rfl
  have hcur : a < (s.coordAt c).refPix.length := by
    have := hrow c hcc
    rw [hgd] at this
    omega
  have hc0 : s.coords[c]? = some (s.coordAt c) := by
    rw [CS.coordAt, getD_eq_q, List.getElem?_eq_getElem hcc]
    rfl
  have hstep : (gatherP (s.setReferencePixel v).1 Coord.refPix 0)[k]?
      = some (((s.coordAt c).withRefPix
          (scatterVec (s.pmaps.getD c []) (s.coordAt c).refPix v 0)).refPix.getD a 0) := by
    unfold gatherP
    rw [List.getElem?_map, List.getElem?_range (by simpa using hkn), Option.map_some']
    have hfp : (s.setReferencePixel v).1.findP k = some (c, a) := hfind
    rw [hfp]
    have hcoord : (s.setReferencePixel v).1.coordAt c
        = (s.coordAt c).withRefPix
            (scatterVec (s.pmaps.getD c []) (s.coordAt c).refPix v 0) := by
      show (s.coords.mapIdx _).getD c default = _
      rw [getD_eq_q, getElem?_mapIdxF, hc0]
      rfl
    show some (((s.setReferencePixel v).1.coordAt c).refPix.getD a 0) = _
    rw [hcoord]
  have hval : ((s.coordAt c).withRefPix
      (scatterVec (s.pmaps.getD c []) (s.coordAt c).refPix v 0)).refPix.getD a 0
      = v[k] := by
    have hrp : ((s.coordAt c).withRefPix
        (scatterVec (s.pmaps.getD c []) (s.coordAt c).refPix v 0)).refPix
        = scatterVec (s.pmaps.getD c []) (s.coordAt c).refPix v 0 := rfl
    rw [hrp, getD_eq_q, scatterVec_getElem? _ _ _ _ a hcur]
    have hwhich : (s.pmaps.getD c []).getD a (-1) = Int.ofNat k := by
      rw [hgd, getD_eq_q, hra]
      rfl
    simp only [hwhich, Option.getD_some]
    rw [if_pos (show (0 : Int) ≤ Int.ofNat k from Int.ofNat_nonneg k)]
    have hh : (Int.ofNat k).toNat = k := rfl
    rw [hh, getD_eq_q, List.getElem?_eq_getElem (by omega : k < v.length)]
    rfl
  have hk1q : k < (gatherP (s.setReferencePixel v).1 Coord.refPix 0).length := hk1
  have hq : (gatherP (s.setReferencePixel v).1 Coord.refPix 0)[k]? = some (v[k]) := by
    rw [hstep, hval]
  rw [List.getElem?_eq_getElem hk1q] at hq
  exact Option.some.inj hq

/-- Storing a world-length vector through `setIncrement` and reading it
back through `increment` returns it unchanged. -/
theorem increment_setIncrement {s : CS} {v : List ℚ}
    (hw : mapsGood s.wmaps s.nW)
    (hlenc : s.wmaps.length ≤ s.coords.length)
    (hrow : ∀ i, i < s.coords.length →
        (s.wmaps.getD i []).length ≤ (s.coordAt i).inc.length)
    (hlen : v.length = s.nW) :
    (s.setIncrement v).1.increment = v := by
  have hnp : (s.setIncrement v).1.increment.length = s.nW := by
    show (gatherW _ _ _).length = _
    simp [gatherW]
    rfl
  apply List.ext_getElem (by rw [hnp, hlen])
  intro k hk1 hk2
  have hkn : k < s.nW := by rw [hnp] at hk1; exact hk1
  show (gatherW (s.setIncrement v).1 Coord.inc 0)[k] = v[k]
  have hexp : Int.ofNat k ∈ exposedVals s.wmaps :=
    mem_exposed_of_lt hw (Int.ofNat_nonneg _) (by rw [Int.ofNat_eq_natCast]; omega)
  have hfound := findIn_isSome_of_mem (mem_flatten_of_exposed hexp)
  obtain ⟨⟨c, a⟩, hfind⟩ := Option.isSome_iff_exists.mp hfound
  have hGet := Get_findIn hfind
  obtain ⟨row, hrowq, hra⟩ : ∃ row, s.wmaps[c]? = some row ∧ row[a]? = some (Int.ofNat k) := by
    rw [Get] at hGet
    rcases hr : s.wmaps[c]? with _ | row
    · rw [hr] at hGet; simp at hGet
    · rw [hr] at hGet
      simp only [Option.some_bind] at hGet
      exact ⟨row, rfl, hGet⟩
  have hclen : c < s.wmaps.length := by
    by_contra hcon
    rw [List.getElem?_eq_none (by omega)] at hrowq
    exact Option.noConfusion hrowq
  have halen : a < row.length := by
    by_contra hcon
    rw [List.getElem?_eq_none (by omega)] at hra
    exact Option.noConfusion hra
  have hcc : c < s.coords.length := by omega
  have hgd : s.wmaps.getD c [] = row := by
    rw [getD_eq_q, hrowq]
    rfl
  have hcur : a < (s.coordAt c).inc.length := by
    have := hrow c hcc
    rw [hgd] at this
    omega
  have hc0 : s.coords[c]? = some (s.coordAt c) := by
    rw [CS.coordAt, getD_eq_q, List.getElem?_eq_getElem hcc]
    rfl
  have hstep : (gatherW (s.setIncrement v).1 Coord.inc 0)[k]?
      = some (((s.coordAt c).withInc
          (scatterVec (s.wmaps.getD c []) (s.coordAt c).inc v 0)).inc.getD a 0) := by
    unfold gatherW
    rw [List.getElem?_map, List.getElem?_range (by simpa using hkn), Option.map_some']
    have hfp : (s.setIncrement v).1.findW k = some (c, a) := hfind
    rw [hfp]
    have hcoord : (s.setIncrement v).1.coordAt c
        = (s.coordAt c).withInc
            (scatterVec (s.wmaps.getD c []) (s.coordAt c).inc v 0) := by
      show (s.coords.mapIdx _).getD c default = _
      rw [getD_eq_q, getElem?_mapIdxF, hc0]
      rfl
    show some (((s.setIncrement v).1.coordAt c).inc.getD a 0) = _
    rw [hcoord]
  have hval : ((s.coordAt c).withInc
      (scatterVec (s.wmaps.getD c []) (s.coordAt c).inc v 0)).inc.getD a 0
      = v[k] := by
    have hrp : ((s.coordAt c).withInc
        (scatterVec (s.wmaps.getD c []) (s.coordAt c).inc v 0)).inc
        = scatterVec (s.wmaps.getD c []) (s.coordAt c).inc v 0 := rfl
    rw [hrp, getD_eq_q, scatterVec_getElem? _ _ _ _ a hcur]
    have hwhich : (s.wmaps.getD c []).getD a (-1) = Int.ofNat k := by
      rw [hgd, getD_eq_q, hra]
      rfl
    simp only [hwhich, Option.getD_some]
    rw [if_pos (show (0 : Int) ≤ Int.ofNat k from Int.ofNat_nonneg k)]
    have hh : (Int.ofNat k).toNat = k := rfl
    rw [hh, getD_eq_q, List.getElem?_eq_getElem (by omega : k < v.length)]
    rfl
  have hk1q : k < (gatherW (s.setIncrement v).1 Coord.inc 0).length := hk1
  have hq : (gatherW (s.setIncrement v).1 Coord.inc 0)[k]? = some (v[k]) := by
    rw [hstep, hval]
  rw [List.getElem?_eq_getElem hk1q] at hq
  exact Option.some.inj hq

/-! ## C6: subImage -/

/-- Successful run of the `subImage` per-axis loop: every listed axis gets
its reference pixel shifted and scaled and its increment scaled; other
positions are untouched. -/
theorem subImageLoop_ok {shift pixinc : List Int} :
    ∀ (idxs : List ℕ) (crpix cdelt : List ℚ),
    (∀ i ∈ idxs, (1 : Int) ≤ pixinc.getD i 0 ∧ i < crpix.length ∧ i < cdelt.length) →
    idxs.Nodup →
    ∃ pr : List ℚ × List ℚ,
      subImageLoop shift pixinc idxs crpix cdelt = .ok pr ∧
      pr.1.length = crpix.length ∧ pr.2.length = cdelt.length ∧
      (∀ j : ℕ, pr.1[j]? = if j ∈ idxs
          then (crpix[j]?).map (fun cp =>
            (cp - ((shift.getD j 0 : Int) : ℚ)) / ((pixinc.getD j 0 : Int) : ℚ))
          else crpix[j]?) ∧
      (∀ j : ℕ, pr.2[j]? = if j ∈ idxs
          then (cdelt[j]?).map (fun cd => cd * ((pixinc.getD j 0 : Int) : ℚ))
          else cdelt[j]?) := by
  intro idxs
  induction idxs with
  | nil =>
    intro crpix cdelt hgood hnd
    exact ⟨(crpix, cdelt), rfl, rfl, rfl,
      fun j => by simp, fun j => by simp⟩
  | cons i rest ih =>
    intro crpix cdelt hgood hnd
    obtain ⟨h1, h2, h3⟩ := hgood i (List.mem_cons_self i rest)
    have hcp : crpix[i]? = some (crpix.get ⟨i, h2⟩) := List.getElem?_eq_getElem h2
    have hcd : cdelt[i]? = some (cdelt.get ⟨i, h3⟩) := List.getElem?_eq_getElem h3
    rw [List.nodup_cons] at hnd
    obtain ⟨hni, hndr⟩ := hnd
    have hstep : subImageLoop shift pixinc (i :: rest) crpix cdelt
        = subImageLoop shift pixinc rest
            (crpix.set i ((crpix.get ⟨i, h2⟩ - ((shift.getD i 0 : Int) : ℚ))
              / ((pixinc.getD i 0 : Int) : ℚ)))
            (cdelt.set i (cdelt.get ⟨i, h3⟩ * ((pixinc.getD i 0 : Int) : ℚ))) := by
      rw [subImageLoop, if_pos h1, hcp, hcd]
    obtain ⟨pr, hok, hl1, hl2, hc1, hc2⟩ := ih
      (crpix.set i _) (cdelt.set i _)
      (fun j hj => ⟨(hgood j (List.mem_cons_of_mem i hj)).1,
        by simpa using (hgood j (List.mem_cons_of_mem i hj)).2.1,
        by simpa using (hgood j (List.mem_cons_of_mem i hj)).2.2⟩)
      hndr
    refine ⟨pr, by rw [hstep]; exact hok,
      by simpa using hl1, by simpa using hl2, ?_, ?_⟩
    · intro j
      rw [hc1 j]
      by_cases hji : j = i
      · rw [hji, if_neg (fun hmem => hni hmem), if_pos (List.mem_cons_self i rest)]
        rw [List.getElem?_set_self h2, hcp]
        rfl
      · by_cases hjr : j ∈ rest
        · rw [if_pos hjr, if_pos (List.mem_cons_of_mem i hjr),
            List.getElem?_set_ne (fun hh => hji hh.symm)]
        · rw [if_neg hjr, if_neg (by
            intro hmem
            rcases List.mem_cons.mp hmem with hh | hh
            · exact hji hh
            · exact hjr hh),
            List.getElem?_set_ne (fun hh => hji hh.symm)]
    · intro j
      rw [hc2 j]
      by_cases hji : j = i
      · rw [hji, if_neg (fun hmem => hni hmem), if_pos (List.mem_cons_self i rest)]
        rw [List.getElem?_set_self h3, hcd]
        rfl
      · by_cases hjr : j ∈ rest
        · rw [if_pos hjr, if_pos (List.mem_cons_of_mem i hjr),
            List.getElem?_set_ne (fun hh => hji hh.symm)]
        · rw [if_neg hjr, if_neg (by
            intro hmem
            rcases List.mem_cons.mp hmem with hh | hh
            · exact hji hh
            · exact hjr hh),
            List.getElem?_set_ne (fun hh => hji hh.symm)]

/-- The `subImage` loop aborts with `invalidIncrement` as soon as some
listed pixel increment is below one. -/
theorem subImageLoop_err {shift pixinc : List Int} :
    ∀ (idxs : List ℕ) (crpix cdelt : List ℚ),
    (∀ i ∈ idxs, i < crpix.length ∧ i < cdelt.length) →
    (∃ i ∈ idxs, pixinc.getD i 0 < 1) →
    subImageLoop shift pixinc idxs crpix cdelt = .error .invalidIncrement := by
  intro idxs
  induction idxs with
  | nil =>
    intro crpix cdelt hlen hbad
    obtain ⟨i, hi, -⟩ := hbad
    simp at hi
  | cons i rest ih =>
    intro crpix cdelt hlen hbad
    by_cases h1 : (1 : Int) ≤ pixinc.getD i 0
    · obtain ⟨h2, h3⟩ := hlen i (List.mem_cons_self i rest)
      have hcp : crpix[i]? = some (crpix.get ⟨i, h2⟩) := List.getElem?_eq_getElem h2
      have hcd : cdelt[i]? = some (cdelt.get ⟨i, h3⟩) := List.getElem?_eq_getElem h3
      rw [subImageLoop, if_pos h1, hcp, hcd]
      apply ih
      · intro j hj
        exact ⟨by simpa using (hlen j (List.mem_cons_of_mem i hj)).1,
          by simpa using (hlen j (List.mem_cons_of_mem i hj)).2⟩
      · obtain ⟨j, hj, hbadj⟩ := hbad
        rcases List.mem_cons.mp hj with hh | hh
        · exfalso
          rw [hh] at hbadj
          omega
        · exact ⟨j, hh, hbadj⟩
    · rw [subImageLoop, if_neg h1]

theorem referencePixel_length (s : CS) : s.referencePixel.length = s.nP := by
  simp [CS.referencePixel, gatherP]

theorem increment_length (s : CS) : s.increment.length = s.nW := by
  simp [CS.increment, gatherW]

theorem referenceValue_setRefPix (s : CS) (v : List ℚ) :
    (s.setReferencePixel v).1.referenceValue = s.referenceValue :=
  gatherW_mapCoords s _ Coord.refVal 0 (fun _ _ => rfl)

theorem worldAxisNames_setRefPix (s : CS) (v : List ℚ) :
    (s.setReferencePixel v).1.worldAxisNames = s.worldAxisNames :=
  gatherW_mapCoords s _ Coord.names "" (fun _ _ => rfl)

theorem worldAxisUnits_setRefPix (s : CS) (v : List ℚ) :
    (s.setReferencePixel v).1.worldAxisUnits = s.worldAxisUnits :=
  gatherW_mapCoords s _ Coord.units "" (fun _ _ => rfl)

theorem increment_setRefPix (s : CS) (v : List ℚ) :
    (s.setReferencePixel v).1.increment = s.increment :=
  gatherW_mapCoords s _ Coord.inc 0 (fun _ _ => rfl)

theorem linearTransform_setRefPix (s : CS) (v : List ℚ) :
    (s.setReferencePixel v).1.linearTransform = s.linearTransform :=
  linearTransform_mapCoords s _ (fun _ _ => rfl)

theorem referencePixel_setInc (s : CS) (v : List ℚ) :
    (s.setIncrement v).1.referencePixel = s.referencePixel :=
  gatherP_mapCoords s _ Coord.refPix 0 (fun _ _ => rfl)

theorem referenceValue_setInc (s : CS) (v : List ℚ) :
    (s.setIncrement v).1.referenceValue = s.referenceValue :=
  gatherW_mapCoords s _ Coord.refVal 0 (fun _ _ => rfl)

theorem worldAxisNames_setInc (s : CS) (v : List ℚ) :
    (s.setIncrement v).1.worldAxisNames = s.worldAxisNames :=
  gatherW_mapCoords s _ Coord.names "" (fun _ _ => rfl)

theorem worldAxisUnits_setInc (s : CS) (v : List ℚ) :
    (s.setIncrement v).1.worldAxisUnits = s.worldAxisUnits :=
  gatherW_mapCoords s _ Coord.units "" (fun _ _ => rfl)

theorem linearTransform_setInc (s : CS) (v : List ℚ) :
    (s.setIncrement v).1.linearTransform = s.linearTransform :=
  linearTransform_mapCoords s _ (fun _ _ => rfl)

/-- General behaviour of `subImage` on a well-formed system. -/
theorem subImage_spec {s : CS} {originShift pixinc : List Int}
    (hWF : s.WF) (hw : mapsGood s.wmaps s.nW) (hp : mapsGood s.pmaps s.nP)
    (hnp : s.nP ≤ s.nW)
    (hsh : originShift.length = s.nP) (hin : pixinc.length = s.nP) :
    ((∀ i, i < s.nP → (1 : Int) ≤ pixinc.getD i 0) →
      ∃ s', s.subImage originShift pixinc = .ok s' ∧
        s'.referencePixel = (List.range s.nP).map (fun i =>
          (s.referencePixel.getD i 0 - ((originShift.getD i 0 : Int) : ℚ))
            / ((pixinc.getD i 0 : Int) : ℚ)) ∧
        s'.increment = (List.range s.nW).map (fun i =>
          if i < s.nP then s.increment.getD i 0 * ((pixinc.getD i 0 : Int) : ℚ)
          else s.increment.getD i 0) ∧
        s'.referenceValue = s.referenceValue ∧
        s'.worldAxisNames = s.worldAxisNames ∧
        s'.worldAxisUnits = s.worldAxisUnits ∧
        s'.linearTransform = s.linearTransform) ∧
    ((∃ i, i < s.nP ∧ pixinc.getD i 0 < 1) →
      s.subImage originShift pixinc = .error .invalidIncrement) := by
  obtain ⟨hWl, hPl, -, -, -, -, hper⟩ := hWF
  have hcrl : s.referencePixel.length = s.nP := referencePixel_length s
  have hcdl : s.increment.length = s.nW := increment_length s
  refine ⟨?_, ?_⟩
  · intro hge
    obtain ⟨pr, hok, hl1, hl2, hc1, hc2⟩ :=
      @subImageLoop_ok originShift pixinc
        (List.range s.nP) s.referencePixel s.increment
        (fun i hi => by
          rw [List.mem_range] at hi
          exact ⟨hge i hi, by omega, by omega⟩)
        (List.nodup_range _)
    refine ⟨((s.setReferencePixel pr.1).1.setIncrement pr.2).1, ?_, ?_, ?_, ?_, ?_, ?_, ?_⟩
    · rw [CS.subImage, if_pos ⟨hsh, hin⟩, hok]
    · rw [referencePixel_setInc]
      have hback : (s.setReferencePixel pr.1).1.referencePixel = pr.1 := by
        apply referencePixel_setReferencePixel hp (by omega)
        · intro i hi
          obtain ⟨-, h2, -, -, -, -, -, h8, -⟩ := hper i hi
          omega
        · omega
      rw [hback]
      apply List.ext_getElem?
      intro j
      rw [hc1 j, List.getElem?_map]
      by_cases hj : j < s.nP
      · have hjl : j < s.referencePixel.length := by omega
        rw [if_pos (List.mem_range.mpr hj),
          List.getElem?_eq_getElem hjl,
          List.getElem?_eq_getElem (by simpa using hj)]
        simp only [Option.map_some', List.getElem_range]
        rw [getD_eq_getElem s.referencePixel j 0 hjl]
      · rw [if_neg (fun hmem => hj (List.mem_range.mp hmem)),
          List.getElem?_eq_none (by omega : s.referencePixel.length ≤ j),
          List.getElem?_eq_none (by simpa using hj)]
        rfl
    · have hs2 : ((s.setReferencePixel pr.1).1.setIncrement pr.2).1.increment = pr.2 := by
        apply increment_setIncrement
        · show mapsGood s.wmaps s.nW
          exact hw
        · show s.wmaps.length ≤ (s.coords.mapIdx _).length
          rw [List.length_mapIdx]
          omega
        · intro i hi
          have hi' : i < s.coords.length := by
            revert hi
            show i < (s.coords.mapIdx _).length → _
            rw [List.length_mapIdx]
            exact id
          obtain ⟨h1, -, -, -, -, -, -, -, h9, -⟩ := hper i hi'
          have hAt : s.coords[i]? = some (s.coordAt i) := by
            rw [CS.coordAt, getD_eq_q, List.getElem?_eq_getElem hi']
            rfl
          have hco : (s.setReferencePixel pr.1).1.coordAt i
              = (s.coordAt i).withRefPix
                  (scatterVec (s.pmaps.getD i []) (s.coordAt i).refPix pr.1 0) := by
            show (s.coords.mapIdx _).getD i default = _
            rw [getD_eq_q, getElem?_mapIdxF, hAt]
            rfl
          show (s.wmaps.getD i []).length
              ≤ ((s.setReferencePixel pr.1).1.coordAt i).inc.length
          rw [hco]
          show (s.wmaps.getD i []).length ≤ (s.coordAt i).inc.length
          omega
        · show pr.2.length = s.nW
          omega
      rw [hs2]
      apply List.ext_getElem?
      intro j
      rw [hc2 j, List.getElem?_map]
      by_cases hj : j < s.nW
      · have hjl : j < s.increment.length := by omega
        have hjr : j < (List.range s.nW).length := by simpa using hj
        rw [List.getElem?_eq_getElem hjr]
        simp only [List.getElem_range, Option.map_some']
        by_cases hjp : j < s.nP
        · rw [if_pos (List.mem_range.mpr hjp), if_pos hjp,
            List.getElem?_eq_getElem hjl]
          simp only [Option.map_some']
          rw [getD_eq_getElem s.increment j 0 hjl]
        · rw [if_neg (fun hmem => hjp (List.mem_range.mp hmem)), if_neg hjp,
            List.getElem?_eq_getElem hjl]
          rw [getD_eq_getElem s.increment j 0 hjl]
      · rw [if_neg (fun hmem => hj (by
          have := List.mem_range.mp hmem
          omega))]
        rw [List.getElem?_eq_none (by omega : s.increment.length ≤ j),
          List.getElem?_eq_none (by simpa using hj : (List.range s.nW).length ≤ j)]
        rfl
    · rw [referenceValue_setInc, referenceValue_setRefPix]
    · rw [worldAxisNames_setInc, worldAxisNames_setRefPix]
    · rw [worldAxisUnits_setInc, worldAxisUnits_setRefPix]
    · rw [linearTransform_setInc, linearTransform_setRefPix]
  · intro hbad
    rw [CS.subImage, if_pos ⟨hsh, hin⟩]
    rw [subImageLoop_err (List.range s.nP) s.referencePixel s.increment
      (fun i hi => by
        rw [List.mem_range] at hi
        exact ⟨by omega, by omega⟩)
      (by
        obtain ⟨i, hi, hlt⟩ := hbad
        exact ⟨i, List.mem_range.mpr hi, hlt⟩)]

/-- **C6.**  On a well-formed CoordinateSystem with `nP ≤ nW`, `subImage`
with all pixel increments at least one returns a system whose reference
pixel on pixel axis `i` is `(refpix[i] − originShift[i]) / pixinc[i]` and
whose increment is `increment[i] · pixinc[i]` (world axes beyond the
pixel axes keep their increment), with all other descriptors unchanged;
it fails with kind `invalidIncrement` when some `pixinc[i] < 1`.  In
particular, refpix `(256,256)` and increment `(1,1)` with shift
`(100,200)` and incs `(2,2)` yield refpix `(78,28)` and increment
`(2,2)`. -/
theorem C6_subImage {s : CS} {originShift pixinc : List Int}
    (hWF : s.WF) (hw : mapsGood s.wmaps s.nW) (hp : mapsGood s.pmaps s.nP)
    (hnp : s.nP ≤ s.nW)
    (hsh : originShift.length = s.nP) (hin : pixinc.length = s.nP) :
    ((∀ i, i < s.nP → (1 : Int) ≤ pixinc.getD i 0) →
      ∃ s', s.subImage originShift pixinc = .ok s' ∧
        s'.referencePixel = (List.range s.nP).map (fun i =>
          (s.referencePixel.getD i 0 - ((originShift.getD i 0 : Int) : ℚ))
            / ((pixinc.getD i 0 : Int) : ℚ)) ∧
        s'.increment = (List.range s.nW).map (fun i =>
          if i < s.nP then s.increment.getD i 0 * ((pixinc.getD i 0 : Int) : ℚ)
          else s.increment.getD i 0) ∧
        s'.referenceValue = s.referenceValue ∧
        s'.worldAxisNames = s.worldAxisNames ∧
        s'.worldAxisUnits = s.worldAxisUnits ∧
        s'.linearTransform = s.linearTransform) ∧
    ((∃ i, i < s.nP ∧ pixinc.getD i 0 < 1) →
      s.subImage originShift pixinc = .error .invalidIncrement) ∧
    (exC6.subImage [100, 200] [2, 2]).map CS.referencePixel = .ok [78, 28] ∧
    (exC6.subImage [100, 200] [2, 2]).map CS.increment = .ok [2, 2] := by
  have hex := @subImage_spec exC6 [100, 200] [2, 2]
    (by
      refine ⟨rfl, rfl, rfl, rfl, rfl, rfl, ?_⟩
      intro i hi
      have hi1 : i = 0 := by
        have hlen1 : exC6.coords.length = 1 := rfl
        omega
      subst hi1
      exact ⟨rfl, rfl, rfl, rfl, rfl, rfl, rfl, rfl, rfl, rfl, rfl⟩)
    (by decide) (by decide) (by decide) (by decide) (by decide)
  obtain ⟨s', hok, hrp, hinc, -, -, -, -⟩ := hex.1 (by decide)
  refine ⟨(subImage_spec hWF hw hp hnp hsh hin).1,
    (subImage_spec hWF hw hp hnp hsh hin).2, ?_, ?_⟩
  · rw [hok]
    simp only [Except.map]
    rw [hrp]
    have key : (List.range exC6.nP).map (fun i =>
        (exC6.referencePixel.getD i 0 - ((([100, 200] : List Int).getD i 0 : Int) : ℚ))
          / ((([2, 2] : List Int).getD i 0 : Int) : ℚ))
        = [((256 : ℚ) - ((100 : Int) : ℚ)) / ((2 : Int) : ℚ),
           ((256 : ℚ) - ((200 : Int) : ℚ)) / ((2 : Int) : ℚ)] := rfl
    rw [key]
    norm_num
  · rw [hok]
    simp only [Except.map]
    rw [hinc]
    have key : (List.range exC6.nW).map (fun i =>
        if i < exC6.nP then exC6.increment.getD i 0 * ((([2, 2] : List Int).getD i 0 : Int) : ℚ)
        else exC6.increment.getD i 0)
        = [(1 : ℚ) * ((2 : Int) : ℚ), (1 : ℚ) * ((2 : Int) : ℚ)] := rfl
    rw [key]
    norm_num

/-- Witness for C6: all hypotheses are discharged on the concrete 2-axis
system `exC6`. -/
theorem C6_subImage_witness :
    ((∀ i, i < exC6.nP → (1 : Int) ≤ ([2, 2] : List Int).getD i 0) →
      ∃ s', exC6.subImage [100, 200] [2, 2] = .ok s' ∧
        s'.referencePixel = (List.range exC6.nP).map (fun i =>
          (exC6.referencePixel.getD i 0 - ((([100, 200] : List Int).getD i 0 : Int) : ℚ))
            / ((([2, 2] : List Int).getD i 0 : Int) : ℚ)) ∧
        s'.increment = (List.range exC6.nW).map (fun i =>
          if i < exC6.nP then exC6.increment.getD i 0 * ((([2, 2] : List Int).getD i 0 : Int) : ℚ)
          else exC6.increment.getD i 0) ∧
        s'.referenceValue = exC6.referenceValue ∧
        s'.worldAxisNames = exC6.worldAxisNames ∧
        s'.worldAxisUnits = exC6.worldAxisUnits ∧
        s'.linearTransform = exC6.linearTransform) ∧
    ((∃ i, i < exC6.nP ∧ ([2, 2] : List Int).getD i 0 < 1) →
      exC6.subImage [100, 200] [2, 2] = .error .invalidIncrement) ∧
    (exC6.subImage [100, 200] [2, 2]).map CS.referencePixel = .ok [78, 28] ∧
    (exC6.subImage [100, 200] [2, 2]).map CS.increment = .ok [2, 2] :=
  C6_subImage (by
      refine ⟨rfl, rfl, rfl, rfl, rfl, rfl, ?_⟩
      intro i hi
      have hi1 : i = 0 := by
        have hlen1 : exC6.coords.length = 1 := rfl
        omega
      subst hi1
      exact ⟨rfl, rfl, rfl, rfl, rfl, rfl, rfl, rfl, rfl, rfl, rfl⟩)
    (by decide) (by decide) (by decide) (by decide) (by decide)

/-! ## C1: composite toWorld / toPixel -/

theorem writeOutAux_length (vals : List ℚ) :
    ∀ (m : List Int) (j : ℕ) (buf : List ℚ),
    (writeOutAux vals m j buf).length = buf.length := by
  intro m
  induction m with
  | nil => intro j buf; rfl
  | cons w rest ih =>
    intro j buf
    rw [writeOutAux, ih]
    by_cases h : (0 : Int) ≤ w
    · rw [if_pos h, List.length_set]
    · rw [if_neg h]

theorem writeOutAux_untouched {vals : List ℚ} :
    ∀ {m : List Int} {j : ℕ} {buf : List ℚ} {k : ℕ},
    Int.ofNat k ∉ m → (writeOutAux vals m j buf)[k]? = buf[k]? := by
  intro m
  induction m with
  | nil => intro j buf k _; rfl
  | cons w rest ih =>
    intro j buf k hk
    rw [List.mem_cons, not_or] at hk
    rw [writeOutAux, ih hk.2]
    by_cases h : (0 : Int) ≤ w
    · rw [if_pos h, List.getElem?_set_ne]
      intro hEq
      apply hk.1
      rw [← hEq]
      simp only [Int.ofNat_eq_natCast]
      omega
    · rw [if_neg h]

theorem writeOutAux_written {vals : List ℚ} :
    ∀ {m : List Int} {j : ℕ} {buf : List ℚ} {k a : ℕ},
    (m.filter (fun v => decide (0 ≤ v))).Nodup →
    m[a]? = some (Int.ofNat k) → k < buf.length →
    (writeOutAux vals m j buf)[k]? = some (vals.getD (j + a) 0) := by
  intro m
  induction m with
  | nil => intro j buf k a _ ha _; simp at ha
  | cons w rest ih =>
    intro j buf k a hnd ha hk
    rw [List.filter_cons] at hnd
    cases a with
    | zero =>
      rw [List.getElem?_cons_zero, Option.some.injEq] at ha
      subst ha
      have hw : (0 : Int) ≤ Int.ofNat k := Int.ofNat_nonneg k
      rw [writeOutAux, if_pos hw]
      have hnotin : Int.ofNat k ∉ rest := by
        intro hmem
        have : Int.ofNat k ∈ rest.filter (fun v => decide (0 ≤ v)) := by
          rw [List.mem_filter]
          exact ⟨hmem, by simpa using hw⟩
        rw [if_pos (by simpa using hw)] at hnd
        rw [List.nodup_cons] at hnd
        exact hnd.1 this
      rw [writeOutAux_untouched hnotin]
      have hkt : (Int.ofNat k).toNat = k := rfl
      rw [hkt, List.getElem?_set_self hk, Nat.add_zero]
    | succ a1 =>
      rw [List.getElem?_cons_succ] at ha
      have hnd1 : (rest.filter (fun v => decide (0 ≤ v))).Nodup := by
        by_cases h : (0 : Int) ≤ w
        · rw [if_pos (by simpa using h), List.nodup_cons] at hnd
          exact hnd.2
        · rwa [if_neg (by simpa using h)] at hnd
      rw [writeOutAux]
      have harw : ∀ buf1 : List ℚ, buf1.length = buf.length →
          (writeOutAux vals rest (j + 1) buf1)[k]? = some (vals.getD (j + 1 + a1) 0) := by
        intro buf1 hlen1
        exact ih hnd1 ha (by omega)
      have hfinal : j + 1 + a1 = j + (a1 + 1) := by omega
      by_cases h : (0 : Int) ≤ w
      · rw [if_pos h, ← hfinal]
        exact harw _ (by rw [List.length_set])
      · rw [if_neg h, ← hfinal]
        exact harw _ rfl

theorem forall_lt_succ_shift {P : ℕ → Prop} {i : ℕ} :
    (∀ j, j < i + 1 → P j) ↔ (P 0 ∧ ∀ j, j < i → P (j + 1)) := by
  constructor
  · intro h
    exact ⟨h 0 (by omega), fun j hj => h (j + 1) (by omega)⟩
  · rintro ⟨h0, h⟩ j hj
    cases j with
    | zero => exact h0
    | succ j1 => exact h j1 (by omega)

theorem succAt_cons (input : List ℚ) (sl : Slot) (rest : List Slot) (j : ℕ) :
    succAt input (sl :: rest) (j + 1) ↔ succAt input rest j := Iff.rfl

/-- The flag after the first slot of the loop. -/
theorem convertStep_flag (input : List ℚ) (sl : Slot) (ok : Bool) :
    (if ok = true then
        match sl.conv (gatherSlot sl input) with
        | some w => ((w, true) : List ℚ × Bool)
        | none => (sl.outTmp, false)
      else (sl.outTmp, false)).2
    = (ok && decide (succAt input (sl :: rest) 0)) := by
  cases ok with
  | false => rfl
  | true =>
    rw [if_pos rfl]
    rcases hc : sl.conv (gatherSlot sl input) with _ | w
    · have : ¬ succAt input (sl :: rest) 0 := by
        rw [succAt]
        show ¬ ((sl.conv (gatherSlot sl input)).isSome = true)
        rw [hc]
        simp
      simp [hc, this]
    · have : succAt input (sl :: rest) 0 := by
        rw [succAt]
        show (sl.conv (gatherSlot sl input)).isSome = true
        rw [hc]
        rfl
      simp [hc, this]

/-- The first slot's stored output scratch. -/
theorem convertStep_out (input : List ℚ) (sl : Slot) (rest : List Slot) (ok : Bool) :
    (if ok = true then
        match sl.conv (gatherSlot sl input) with
        | some w => ((w, true) : List ℚ × Bool)
        | none => (sl.outTmp, false)
      else (sl.outTmp, false)).1
    = outValAt input (sl :: rest) ok 0 := by
  cases ok with
  | false =>
    rw [outValAt, if_neg (by simp)]
    rfl
  | true =>
    rw [if_pos rfl, outValAt, if_pos ⟨rfl, by omega⟩, freshOut]
    rcases hc : sl.conv (gatherSlot sl input) with _ | w
    · show sl.outTmp = _
      have h0 : (sl :: rest).getD 0 default = sl := rfl
      rw [h0, hc]
    · show w = _
      have h0 : (sl :: rest).getD 0 default = sl := rfl
      rw [h0, hc]

theorem outValAt_cons (input : List ℚ) (sl : Slot) (rest : List Slot) (ok : Bool) (i : ℕ) :
    outValAt input rest (ok && decide (succAt input (sl :: rest) 0)) i
      = outValAt input (sl :: rest) ok (i + 1) := by
  rw [outValAt, outValAt]
  have hcond : ((ok && decide (succAt input (sl :: rest) 0)) = true
        ∧ ∀ j, j < i → succAt input rest j)
      ↔ (ok = true ∧ ∀ j, j < i + 1 → succAt input (sl :: rest) j) := by
    constructor
    · rintro ⟨hb, hr⟩
      rw [Bool.and_eq_true, decide_eq_true_eq] at hb
      refine ⟨hb.1, ?_⟩
      intro j hj
      cases j with
      | zero => exact hb.2
      | succ j1 => exact (succAt_cons input sl rest j1).mpr (hr j1 (by omega))
    · rintro ⟨hb, hr⟩
      refine ⟨?_, ?_⟩
      · rw [Bool.and_eq_true, decide_eq_true_eq]
        exact ⟨hb, hr 0 (by omega)⟩
      · intro j hj
        exact (succAt_cons input sl rest j).mp (hr (j + 1) (by omega))
  by_cases hC : ok = true ∧ ∀ j, j < i + 1 → succAt input (sl :: rest) j
  · rw [if_pos (hcond.mpr hC), if_pos hC]
    rfl
  · rw [if_neg (fun hh => hC (hcond.mp hh)), if_neg hC]
    rfl

/-- Unfolding of one loop iteration: the stored scratch pair and the new
flag, expressed through `outValAt` and `succAt`. -/
theorem convertSteps_cons (input : List ℚ) (sl : Slot) (rest : List Slot)
    (buf : List ℚ) (ok : Bool) :
    convertSteps input (sl :: rest) buf ok =
      ⟨(gatherSlot sl input, outValAt input (sl :: rest) ok 0) ::
         (convertSteps input rest
            (writeOut sl.outMap (outValAt input (sl :: rest) ok 0) buf)
            (ok && decide (succAt input (sl :: rest) 0))).tmps,
       (convertSteps input rest
          (writeOut sl.outMap (outValAt input (sl :: rest) ok 0) buf)
          (ok && decide (succAt input (sl :: rest) 0))).buf,
       (convertSteps input rest
          (writeOut sl.outMap (outValAt input (sl :: rest) ok 0) buf)
          (ok && decide (succAt input (sl :: rest) 0))).ok,
       ok :: (convertSteps input rest
          (writeOut sl.outMap (outValAt input (sl :: rest) ok 0) buf)
          (ok && decide (succAt input (sl :: rest) 0))).invoked⟩ := by
  cases ok with
  | false =>
    have ho : outValAt input (sl :: rest) false 0 = sl.outTmp := by
      rw [outValAt, if_neg (by simp)]
      rfl
    have hs : (false && decide (succAt input (sl :: rest) 0)) = false := rfl
    rw [ho, hs]
    rfl
  | true =>
    rcases hc : sl.conv (gatherSlot sl input) with _ | w
    · have hsucc : ¬ succAt input (sl :: rest) 0 := by
        rw [succAt]
        show ¬ ((sl.conv (gatherSlot sl input)).isSome = true)
        rw [hc]
        simp
      have hs : (true && decide (succAt input (sl :: rest) 0)) = false := by
        simp [hsucc]
      have ho : outValAt input (sl :: rest) true 0 = sl.outTmp := by
        rw [outValAt, if_pos ⟨rfl, by omega⟩, freshOut]
        show (match sl.conv (gatherSlot sl input) with
              | some w => w
              | none => sl.outTmp) = sl.outTmp
        rw [hc]
      rw [ho, hs]
      simp only [convertSteps, hc]
      rfl
    · have hsucc : succAt input (sl :: rest) 0 := by
        rw [succAt]
        show (sl.conv (gatherSlot sl input)).isSome = true
        rw [hc]
        rfl
      have hs : (true && decide (succAt input (sl :: rest) 0)) = true := by
        simp [hsucc]
      have ho : outValAt input (sl :: rest) true 0 = w := by
        rw [outValAt, if_pos ⟨rfl, by omega⟩, freshOut]
        show (match sl.conv (gatherSlot sl input) with
              | some w1 => w1
              | none => sl.outTmp) = w
        rw [hc]
      rw [ho, hs]
      simp only [convertSteps, hc]
      rfl

/-- Projection corollaries of `convertSteps_cons`. -/
theorem convertSteps_cons_tmps (input : List ℚ) (sl : Slot) (rest : List Slot)
    (buf : List ℚ) (ok : Bool) :
    (convertSteps input (sl :: rest) buf ok).tmps =
      (gatherSlot sl input, outValAt input (sl :: rest) ok 0) ::
        (convertSteps input rest
          (writeOut sl.outMap (outValAt input (sl :: rest) ok 0) buf)
          (ok && decide (succAt input (sl :: rest) 0))).tmps := by
  rw [convertSteps_cons]

theorem convertSteps_cons_invoked (input : List ℚ) (sl : Slot) (rest : List Slot)
    (buf : List ℚ) (ok : Bool) :
    (convertSteps input (sl :: rest) buf ok).invoked =
      ok :: (convertSteps input rest
          (writeOut sl.outMap (outValAt input (sl :: rest) ok 0) buf)
          (ok && decide (succAt input (sl :: rest) 0))).invoked := by
  rw [convertSteps_cons]

theorem convertSteps_cons_buf (input : List ℚ) (sl : Slot) (rest : List Slot)
    (buf : List ℚ) (ok : Bool) :
    (convertSteps input (sl :: rest) buf ok).buf =
      (convertSteps input rest
          (writeOut sl.outMap (outValAt input (sl :: rest) ok 0) buf)
          (ok && decide (succAt input (sl :: rest) 0))).buf := by
  rw [convertSteps_cons]

theorem convertSteps_cons_ok (input : List ℚ) (sl : Slot) (rest : List Slot)
    (buf : List ℚ) (ok : Bool) :
    (convertSteps input (sl :: rest) buf ok).ok =
      (convertSteps input rest
          (writeOut sl.outMap (outValAt input (sl :: rest) ok 0) buf)
          (ok && decide (succAt input (sl :: rest) 0))).ok := by
  rw [convertSteps_cons]

theorem convertSteps_tmps_length (input : List ℚ) :
    ∀ (slots : List Slot) (buf : List ℚ) (ok : Bool),
    (convertSteps input slots buf ok).tmps.length = slots.length := by
  intro slots
  induction slots with
  | nil => intro buf ok; rfl
  | cons sl rest ih =>
    intro buf ok
    rw [convertSteps_cons_tmps, List.length_cons, List.length_cons, ih]

theorem convertSteps_invoked_length (input : List ℚ) :
    ∀ (slots : List Slot) (buf : List ℚ) (ok : Bool),
    (convertSteps input slots buf ok).invoked.length = slots.length := by
  intro slots
  induction slots with
  | nil => intro buf ok; rfl
  | cons sl rest ih =>
    intro buf ok
    rw [convertSteps_cons_invoked, List.length_cons, List.length_cons, ih]

theorem convertSteps_buf_length (input : List ℚ) :
    ∀ (slots : List Slot) (buf : List ℚ) (ok : Bool),
    (convertSteps input slots buf ok).buf.length = buf.length := by
  intro slots
  induction slots with
  | nil => intro buf ok; rfl
  | cons sl rest ih =>
    intro buf ok
    rw [convertSteps_cons_buf, ih, writeOut, writeOutAux_length]

/-- The instrumentation: sub-coordinate `i` is invoked exactly when the
flag still holds and every earlier sub-coordinate conversion succeeded
(the C++ `&&` short-circuits). -/
theorem convertSteps_invoked (input : List ℚ) :
    ∀ (slots : List Slot) (buf : List ℚ) (ok : Bool) (i : ℕ), i < slots.length →
    (convertSteps input slots buf ok).invoked[i]? =
      some (ok && decide (∀ j, j < i → succAt input slots j)) := by
  intro slots
  induction slots with
  | nil => intro buf ok i hi; simp at hi
  | cons sl rest ih =>
    intro buf ok i hi
    rw [convertSteps_cons_invoked]
    cases i with
    | zero =>
      rw [List.getElem?_cons_zero, Option.some.injEq]
      have h0 : decide (∀ j, j < (0 : ℕ) → succAt input (sl :: rest) j) = true := by
        simp
      rw [h0, Bool.and_true]
    | succ i1 =>
      rw [List.getElem?_cons_succ]
      rw [List.length_cons] at hi
      rw [ih _ _ i1 (by omega), Bool.and_assoc, ← Bool.decide_and]
      have hiff : (succAt input (sl :: rest) 0 ∧ ∀ j, j < i1 → succAt input rest j)
          ↔ (∀ j, j < i1 + 1 → succAt input (sl :: rest) j) := by
        rw [forall_lt_succ_shift]
        exact Iff.rfl
      rw [decide_eq_decide.mpr hiff]

/-- The final flag is the short-circuited conjunction of all
per-sub-coordinate successes. -/
theorem convertSteps_ok (input : List ℚ) :
    ∀ (slots : List Slot) (buf : List ℚ) (ok : Bool),
    (convertSteps input slots buf ok).ok =
      (ok && decide (∀ j, j < slots.length → succAt input slots j)) := by
  intro slots
  induction slots with
  | nil =>
    intro buf ok
    have h0 : decide (∀ j, j < ([] : List Slot).length → succAt input [] j) = true := by
      simp
    rw [h0, Bool.and_true]
    rfl
  | cons sl rest ih =>
    intro buf ok
    rw [convertSteps_cons_ok, ih, Bool.and_assoc, ← Bool.decide_and]
    have hiff : (succAt input (sl :: rest) 0 ∧ ∀ j, j < rest.length → succAt input rest j)
        ↔ (∀ j, j < (sl :: rest).length → succAt input (sl :: rest) j) := by
      rw [List.length_cons, forall_lt_succ_shift]
      exact Iff.rfl
    rw [decide_eq_decide.mpr hiff]

/-- The stored scratch pairs: gathered input, and fresh output exactly
when the sub-coordinate was invoked and its conversion succeeded. -/
theorem convertSteps_tmps (input : List ℚ) :
    ∀ (slots : List Slot) (buf : List ℚ) (ok : Bool) (i : ℕ), i < slots.length →
    (convertSteps input slots buf ok).tmps[i]? =
      some (gatherSlot (slots.getD i default) input, outValAt input slots ok i) := by
  intro slots
  induction slots with
  | nil => intro buf ok i hi; simp at hi
  | cons sl rest ih =>
    intro buf ok i hi
    rw [convertSteps_cons_tmps]
    cases i with
    | zero =>
      rw [List.getElem?_cons_zero]
      exact rfl
    | succ i1 =>
      rw [List.getElem?_cons_succ]
      rw [List.length_cons] at hi
      rw [ih _ _ i1 (by omega), outValAt_cons]
      exact rfl

/-- A buffer entry outside every output map is never written. -/
theorem convertSteps_buf_untouched (input : List ℚ) :
    ∀ (slots : List Slot) (buf : List ℚ) (ok : Bool) (k : ℕ),
    (∀ sl ∈ slots, Int.ofNat k ∉ sl.outMap) →
    (convertSteps input slots buf ok).buf[k]? = buf[k]? := by
  intro slots
  induction slots with
  | nil => intro buf ok k _; rfl
  | cons sl rest ih =>
    intro buf ok k hk
    rw [convertSteps_cons_buf,
      ih _ _ k (fun sl1 h1 => hk sl1 (List.mem_cons_of_mem sl h1)),
      writeOut, writeOutAux_untouched (hk sl (List.mem_cons_self sl rest))]

/-- A buffer entry named by sub-coordinate `i`'s output map holds, at the
end of the loop, entry `a` of that sub-coordinate's final scratch. -/
theorem convertSteps_buf_written (input : List ℚ) :
    ∀ (slots : List Slot) (buf : List ℚ) (ok : Bool) (i a k : ℕ),
    i < slots.length →
    ((slots.getD i default).outMap.filter (fun v => decide (0 ≤ v))).Nodup →
    (slots.getD i default).outMap[a]? = some (Int.ofNat k) →
    k < buf.length →
    (∀ j, i < j → j < slots.length → Int.ofNat k ∉ (slots.getD j default).outMap) →
    (convertSteps input slots buf ok).buf[k]? =
      some ((outValAt input slots ok i).getD a 0) := by
  intro slots
  induction slots with
  | nil => intro buf ok i a k hi; simp at hi
  | cons sl rest ih =>
    intro buf ok i a k hi hnd ha hk hlater
    rw [convertSteps_cons_buf]
    cases i with
    | zero =>
      have hofree : ∀ sl1 ∈ rest, Int.ofNat k ∉ sl1.outMap := by
        intro sl1 hmem
        obtain ⟨j, hj, hjeq⟩ := List.getElem_of_mem hmem
        have hlj := hlater (j + 1) (by omega) (by simp; omega)
        have hgd : (sl :: rest).getD (j + 1) default = sl1 := by
          rw [getD_eq_getElem _ _ _ (by simp; omega), List.getElem_cons_succ]
          exact hjeq
        rwa [hgd] at hlj
      rw [convertSteps_buf_untouched input rest _ _ k hofree, writeOut]
      have ha0 : sl.outMap[a]? = some (Int.ofNat k) := ha
      have hnd0 : (sl.outMap.filter (fun v => decide (0 ≤ v))).Nodup := hnd
      rw [writeOutAux_written hnd0 ha0 hk]
      rw [Nat.zero_add]
    | succ i1 =>
      rw [List.length_cons] at hi
      have hlen1 : k < (writeOut sl.outMap (outValAt input (sl :: rest) ok 0) buf).length := by
        rw [writeOut, writeOutAux_length]
        exact hk
      have hlater1 : ∀ j, i1 < j → j < rest.length →
          Int.ofNat k ∉ (rest.getD j default).outMap := by
        intro j h1 h2
        exact hlater (j + 1) (by omega) (by simp; omega)
      rw [ih _ _ i1 a k (by omega) hnd ha hlen1 hlater1, outValAt_cons]

theorem toWorldSlots_length (s : CS) : s.toWorldSlots.length = s.nCoords := by
  rw [CS.toWorldSlots, List.length_map, List.length_range]
  rfl

theorem toPixelSlots_length (s : CS) : s.toPixelSlots.length = s.nCoords := by
  rw [CS.toPixelSlots, List.length_map, List.length_range]
  rfl

theorem toWorldSlots_getD (s : CS) {i : ℕ} (hi : i < s.nCoords) :
    s.toWorldSlots.getD i default =
      ⟨s.pmaps.getD i [], s.wmaps.getD i [], s.prep.getD i [],
       s.ptmp.getD i [], s.wtmp.getD i [], (s.coordAt i).toWorldF⟩ := by
  have hlen : i < s.toWorldSlots.length := by
    rw [toWorldSlots_length]
    exact hi
  rw [getD_eq_getElem _ _ _ hlen]
  have hlen2 : i < ((List.range s.coords.length).map (fun i =>
      (⟨s.pmaps.getD i [], s.wmaps.getD i [], s.prep.getD i [], s.ptmp.getD i [],
       s.wtmp.getD i [], (s.coordAt i).toWorldF⟩ : Slot))).length := hlen
  show ((List.range s.coords.length).map (fun i =>
      (⟨s.pmaps.getD i [], s.wmaps.getD i [], s.prep.getD i [], s.ptmp.getD i [],
       s.wtmp.getD i [], (s.coordAt i).toWorldF⟩ : Slot)))[i] = _
  rw [List.getElem_map, List.getElem_range]

theorem toPixelSlots_getD (s : CS) {i : ℕ} (hi : i < s.nCoords) :
    s.toPixelSlots.getD i default =
      ⟨s.wmaps.getD i [], s.pmaps.getD i [], s.wrep.getD i [],
       s.wtmp.getD i [], s.ptmp.getD i [], (s.coordAt i).toPixelF⟩ := by
  have hlen : i < s.toPixelSlots.length := by
    rw [toPixelSlots_length]
    exact hi
  rw [getD_eq_getElem _ _ _ hlen]
  show ((List.range s.coords.length).map (fun i =>
      (⟨s.wmaps.getD i [], s.pmaps.getD i [], s.wrep.getD i [], s.wtmp.getD i [],
       s.ptmp.getD i [], (s.coordAt i).toPixelF⟩ : Slot)))[i] = _
  rw [List.getElem_map, List.getElem_range]

/-- A single row's exposed entries are distinct when the whole family's
exposed entries are. -/
theorem row_filter_nodup {maps : List (List Int)}
    (hn : (exposedVals maps).Nodup) (i : ℕ) :
    ((maps.getD i []).filter (fun v => decide (0 ≤ v))).Nodup := by
  by_cases hi : i < maps.length
  · have hmem : maps.getD i [] ∈ maps := by
      rw [getD_eq_getElem maps i [] hi]
      exact List.getElem_mem hi
    have hsub : maps.getD i [] <+ maps.flatten := List.sublist_flatten_of_mem hmem
    exact List.Nodup.sublist (List.Sublist.filter _ hsub) hn
  · rw [getD_eq_q, List.getElem?_eq_none (by omega)]
    simp

/-- A value read through `getD` at an in-range row is exposed. -/
theorem exposed_of_getD {maps : List (List Int)} {i a : ℕ} {v : Int}
    (ha : (maps.getD i [])[a]? = some v) (h0 : 0 ≤ v) : v ∈ exposedVals maps := by
  by_cases hi : i < maps.length
  · refine mem_exposed_of_getElem? (c := i) ?_ ha h0
    rw [List.getElem?_eq_getElem hi, getD_eq_getElem maps i [] hi]
  · rw [getD_eq_q, List.getElem?_eq_none (show maps.length ≤ i by omega)] at ha
    simp at ha

theorem Get_of_getD {maps : List (List Int)} {i a : ℕ} {v : Int}
    (ha : (maps.getD i [])[a]? = some v) : Get maps i a = some v := by
  by_cases hi : i < maps.length
  · rw [Get, List.getElem?_eq_getElem hi, Option.some_bind, ← getD_eq_getElem maps i [] hi]
    exact ha
  · rw [getD_eq_q, List.getElem?_eq_none (show maps.length ≤ i by omega)] at ha
    simp at ha

/-- Full characterization of one composite conversion pass started with a
true flag, under the axis-mapping invariant for the output maps. -/
theorem convert_characterization (input buf : List ℚ) (slots : List Slot)
    (maps : List (List Int)) (n : ℕ)
    (hbuf : buf.length = n) (hg : mapsGood maps n)
    (hslots : ∀ i, i < slots.length → (slots.getD i default).outMap = maps.getD i []) :
    (∀ i, i < slots.length →
      ((convertSteps input slots buf true).invoked[i]? =
          some (decide (∀ j, j < i → succAt input slots j)) ∧
       (convertSteps input slots buf true).tmps[i]? =
          some (gatherSlot (slots.getD i default) input, outValAt input slots true i) ∧
       ∀ a k, (maps.getD i [])[a]? = some (Int.ofNat k) →
         (convertSteps input slots buf true).buf[k]? =
           some ((outValAt input slots true i).getD a 0))) ∧
    (convertSteps input slots buf true).ok =
      decide (∀ j, j < slots.length → succAt input slots j) := by
  constructor
  · intro i hi
    refine ⟨?_, convertSteps_tmps input slots buf true i hi, ?_⟩
    · rw [convertSteps_invoked input slots buf true i hi, Bool.true_and]
    · intro a k ha
      have hout : (slots.getD i default).outMap = maps.getD i [] := hslots i hi
      have hmem : Int.ofNat k ∈ exposedVals maps :=
        exposed_of_getD ha (Int.ofNat_nonneg k)
      have hlt := (exposed_lt_of_mem hg hmem).2
      have hk : k < buf.length := by
        rw [hbuf]
        simp only [Int.ofNat_eq_natCast] at hlt
        omega
      have hnd : ((slots.getD i default).outMap.filter
          (fun v => decide (0 ≤ v))).Nodup := by
        rw [hout]
        exact row_filter_nodup (mapsGood_nodup hg) i
      have ha2 : (slots.getD i default).outMap[a]? = some (Int.ofNat k) := by
        rw [hout]
        exact ha
      have hlater : ∀ j, i < j → j < slots.length →
          Int.ofNat k ∉ (slots.getD j default).outMap := by
        intro j hij hj hmem2
        rw [hslots j hj] at hmem2
        obtain ⟨b, hb, hbeq⟩ := List.getElem_of_mem hmem2
        have hGj : Get maps j b = some (Int.ofNat k) := by
          apply Get_of_getD
          rw [List.getElem?_eq_getElem hb, hbeq]
        have hGi : Get maps i a = some (Int.ofNat k) := Get_of_getD ha
        have huniq := Get_unique (mapsGood_nodup hg) (Int.ofNat_nonneg k) hGi hGj
        omega
      exact convertSteps_buf_written input slots buf true i a k hi hnd ha2 hk hlater
  · rw [convertSteps_ok input slots buf true, Bool.true_and]

/-- C1 (amended): for a system satisfying the axis-mapping invariant and
full-length caller vectors, `toWorld` gathers every sub-coordinate's
scratch input from the caller's pixel vector (where the pixel map is
non-negative) and the stored replacement values (where it is `-1`), and
runs the output-copy loop for every sub-coordinate; but the C++ `&&`
short-circuits, so sub-coordinate `i`'s own conversion is invoked only
while the flag still holds, i.e. exactly when every earlier
sub-coordinate's conversion succeeded; each exposed world entry of
sub-coordinate `i` receives its fresh output when it was invoked
successfully and its stale scratch otherwise; the returned flag is true
iff every sub-coordinate's conversion succeeds.  `toPixel` is
symmetric. -/
theorem C1_composite_conversion (s : CS) (world pixel : List ℚ)
    (hw : world.length = s.nW) (hp : pixel.length = s.nP)
    (hgW : mapsGood s.wmaps s.nW) (hgP : mapsGood s.pmaps s.nP) :
    (∀ i, i < s.nCoords →
      ((s.toWorld world pixel).2.invoked[i]? =
          some (decide (∀ j, j < i → succAt pixel s.toWorldSlots j)) ∧
       (s.toWorld world pixel).2.tmps[i]? =
          some (gatherSlot (s.toWorldSlots.getD i default) pixel,
                outValAt pixel s.toWorldSlots true i) ∧
       ∀ a k, (s.wmaps.getD i [])[a]? = some (Int.ofNat k) →
         (s.toWorld world pixel).2.buf[k]? =
           some ((outValAt pixel s.toWorldSlots true i).getD a 0))) ∧
    (s.toWorld world pixel).2.ok =
      decide (∀ j, j < s.nCoords → succAt pixel s.toWorldSlots j) ∧
    (∀ i, i < s.nCoords →
      ((s.toPixel pixel world).2.invoked[i]? =
          some (decide (∀ j, j < i → succAt world s.toPixelSlots j)) ∧
       (s.toPixel pixel world).2.tmps[i]? =
          some (gatherSlot (s.toPixelSlots.getD i default) world,
                outValAt world s.toPixelSlots true i) ∧
       ∀ a k, (s.pmaps.getD i [])[a]? = some (Int.ofNat k) →
         (s.toPixel pixel world).2.buf[k]? =
           some ((outValAt world s.toPixelSlots true i).getD a 0))) ∧
    (s.toPixel pixel world).2.ok =
      decide (∀ j, j < s.nCoords → succAt world s.toPixelSlots j) := by
  have hWlen : s.toWorldSlots.length = s.nCoords := toWorldSlots_length s
  have hPlen : s.toPixelSlots.length = s.nCoords := toPixelSlots_length s
  have hslotsW : ∀ i, i < s.toWorldSlots.length →
      (s.toWorldSlots.getD i default).outMap = s.wmaps.getD i [] := by
    intro i hi
    rw [toWorldSlots_getD s (hWlen ▸ hi)]
  have hslotsP : ∀ i, i < s.toPixelSlots.length →
      (s.toPixelSlots.getD i default).outMap = s.pmaps.getD i [] := by
    intro i hi
    rw [toPixelSlots_getD s (hPlen ▸ hi)]
  have hrW : (s.toWorld world pixel).2 =
      convertSteps pixel s.toWorldSlots world true := rfl
  have hrP : (s.toPixel pixel world).2 =
      convertSteps world s.toPixelSlots pixel true := rfl
  have hW := convert_characterization pixel world s.toWorldSlots s.wmaps s.nW
    hw hgW hslotsW
  have hP := convert_characterization world pixel s.toPixelSlots s.pmaps s.nP
    hp hgP hslotsP
  rw [hWlen] at hW
  rw [hPlen] at hP
  rw [hrW, hrP]
  exact ⟨hW.1, hW.2, hP.1, hP.2⟩

/-- C1 witness: the abstract characterization instantiated at the
concrete two-coordinate system `exC1`. -/
theorem C1_composite_conversion_witness :
    (([(0 : ℚ), 0]).length = exC1.nW ∧ ([(5 : ℚ), 5]).length = exC1.nP ∧
      mapsGood exC1.wmaps exC1.nW ∧ mapsGood exC1.pmaps exC1.nP) ∧
    (exC1.toWorld [0, 0] [5, 5]).2.ok =
      decide (∀ j, j < exC1.nCoords → succAt [5, 5] exC1.toWorldSlots j) :=
  ⟨⟨rfl, rfl, by decide, by decide⟩,
   (C1_composite_conversion exC1 [0, 0] [5, 5] rfl rfl
      (by decide) (by decide)).2.1⟩

/-- C1 counterexample to the frozen claim: in `exC1` the first
sub-coordinate's conversion fails, and the loop then skips the second
sub-coordinate's own conversion even though that conversion would
succeed on its gathered input — `toWorld` does not invoke every
sub-coordinate's conversion after an earlier failure. -/
theorem C1_short_circuit_counterexample :
    (exC1.toWorld [0, 0] [5, 5]).2.invoked = [true, false] ∧
    ((exC1.toWorldSlots.getD 1 default).conv
        (gatherSlot (exC1.toWorldSlots.getD 1 default) [5, 5])).isSome = true :=
  ⟨rfl, rfl⟩

/-! ## C2: bulk conversions -/

theorem bulkLoop_cons_same (conv : List ℚ → Option (List ℚ)) {l : ℕ}
    {col last : List ℚ} (rest : List (List ℚ)) (tmp : List ℚ)
    (h : sameFlag l col last = true) :
    bulkLoop conv (col :: rest) l last tmp =
      (some tmp :: (bulkLoop conv rest (l + 1) col tmp).1,
       (bulkLoop conv rest (l + 1) col tmp).2) := by
  rw [bulkLoop, if_pos h]

theorem bulkLoop_cons_conv (conv : List ℚ → Option (List ℚ)) {l : ℕ}
    {col last : List ℚ} (rest : List (List ℚ)) (tmp : List ℚ) {w : List ℚ}
    (h : sameFlag l col last = false) (hc : conv col = some w) :
    bulkLoop conv (col :: rest) l last tmp =
      (some w :: (bulkLoop conv rest (l + 1) col w).1,
       (bulkLoop conv rest (l + 1) col w).2) := by
  rw [bulkLoop, if_neg (by rw [h]; exact Bool.false_ne_true)]
  simp only [hc]

theorem bulkLoop_cons_fail (conv : List ℚ → Option (List ℚ)) {l : ℕ}
    {col last : List ℚ} (rest : List (List ℚ)) (tmp : List ℚ)
    (h : sameFlag l col last = false) (hc : conv col = none) :
    bulkLoop conv (col :: rest) l last tmp =
      (none :: (bulkLoop conv rest (l + 1) col tmp).1,
       l :: (bulkLoop conv rest (l + 1) col tmp).2) := by
  rw [bulkLoop, if_neg (by rw [h]; exact Bool.false_ne_true)]
  simp only [hc]

/-- When the cache never fires the bulk loop equals the mapped scalar
conversion, with exactly the scalar failures recorded. -/
theorem bulkLoop_spec (conv : List ℚ → Option (List ℚ)) :
    ∀ (cols : List (List ℚ)) (l : ℕ) (last tmp : List ℚ),
    noCache l last cols →
    (bulkLoop conv cols l last tmp).1 = cols.map conv ∧
    (bulkLoop conv cols l last tmp).2 = specFailCols conv l cols := by
  intro cols
  induction cols with
  | nil => intro l last tmp _; exact ⟨rfl, rfl⟩
  | cons col rest ih =>
    intro l last tmp h
    have h2 : sameFlag l col last = false ∧ noCache (l + 1) col rest := h
    rcases hc : conv col with _ | w
    · rw [bulkLoop_cons_fail conv rest tmp h2.1 hc]
      obtain ⟨ihl, ihr⟩ := ih (l + 1) col tmp h2.2
      constructor
      · rw [List.map_cons, hc, ihl]
      · rw [specFailCols, hc, ihr]
        rw [if_neg (by simp)]
    · rw [bulkLoop_cons_conv conv rest tmp h2.1 hc]
      obtain ⟨ihl, ihr⟩ := ih (l + 1) col w h2.2
      constructor
      · rw [List.map_cons, hc, ihl]
      · rw [specFailCols, hc, ihr]
        rw [if_pos (show (some w).isSome = true from rfl)]

/-- Membership in the spec failure list. -/
theorem specFailCols_mem (conv : List ℚ → Option (List ℚ)) :
    ∀ (cols : List (List ℚ)) (l k : ℕ),
    k ∈ specFailCols conv l cols ↔
      (∃ t, t < cols.length ∧ k = l + t ∧
        (conv (cols.getD t [])).isSome = false) := by
  intro cols
  induction cols with
  | nil => intro l k; simp [specFailCols]
  | cons col rest ih =>
    intro l k
    rw [specFailCols]
    by_cases hc : (conv col).isSome = true
    · rw [if_pos hc, ih (l + 1) k]
      constructor
      · rintro ⟨t, ht, rfl, hf⟩
        exact ⟨t + 1, by simp only [List.length_cons]; omega, by omega,
          by simpa using hf⟩
      · rintro ⟨t, ht, rfl, hf⟩
        cases t with
        | zero =>
          rw [List.getD_cons_zero, hc] at hf
          cases hf
        | succ t1 =>
          refine ⟨t1, ?_, by omega, by simpa using hf⟩
          simp only [List.length_cons] at ht
          omega
    · rw [if_neg hc, List.mem_cons, ih (l + 1) k]
      constructor
      · rintro (rfl | ⟨t, ht, rfl, hf⟩)
        · exact ⟨0, by simp, by omega, by simpa using hc⟩
        · exact ⟨t + 1, by simp only [List.length_cons]; omega, by omega,
            by simpa using hf⟩
      · rintro ⟨t, ht, hk, hf⟩
        cases t with
        | zero => left; omega
        | succ t1 =>
          right
          refine ⟨t1, ?_, by omega, by simpa using hf⟩
          simp only [List.length_cons] at ht
          omega

/-- C2 (amended): when no column of the input matrix is `near`-equal to
its predecessor, `toWorldMany` produces per column exactly the scalar
`toWorld` result (`none` marking a failed, unwritten column) and the
reported failure columns are exactly the columns on which the scalar
conversion fails; symmetrically for `toPixelMany`.  When a column is
`near`-equal to its predecessor the cached scratch is copied instead,
which need not equal the scalar result (see the counterexample). -/
theorem C2_bulk_conversion (c : Coord) (colsP colsW : List (List ℚ))
    (hP : noCache 0 (List.replicate c.np 0) colsP)
    (hW : noCache 0 (List.replicate c.nw 0) colsW) :
    ((c.toWorldMany colsP).1 = colsP.map c.toWorldF ∧
     (c.toWorldMany colsP).2 = specFailCols c.toWorldF 0 colsP ∧
     ∀ k, k ∈ (c.toWorldMany colsP).2 ↔
       (k < colsP.length ∧ (c.toWorldF (colsP.getD k [])).isSome = false)) ∧
    ((c.toPixelMany colsW).1 = colsW.map c.toPixelF ∧
     (c.toPixelMany colsW).2 = specFailCols c.toPixelF 0 colsW ∧
     ∀ k, k ∈ (c.toPixelMany colsW).2 ↔
       (k < colsW.length ∧ (c.toPixelF (colsW.getD k [])).isSome = false)) := by
  have hWs := bulkLoop_spec c.toWorldF colsP 0
    (List.replicate c.np 0) (List.replicate c.nw 0) hP
  have hPs := bulkLoop_spec c.toPixelF colsW 0
    (List.replicate c.nw 0) (List.replicate c.np 0) hW
  have hrW : c.toWorldMany colsP =
      bulkLoop c.toWorldF colsP 0 (List.replicate c.np 0) (List.replicate c.nw 0) := rfl
  have hrP : c.toPixelMany colsW =
      bulkLoop c.toPixelF colsW 0 (List.replicate c.nw 0) (List.replicate c.np 0) := rfl
  rw [hrW, hrP]
  refine ⟨⟨hWs.1, hWs.2, ?_⟩, hPs.1, hPs.2, ?_⟩
  · intro k
    rw [hWs.2, specFailCols_mem c.toWorldF colsP 0 k]
    constructor
    · rintro ⟨t, ht, rfl, hf⟩
      rw [Nat.zero_add]
      exact ⟨ht, hf⟩
    · rintro ⟨hk, hf⟩
      exact ⟨k, hk, by omega, hf⟩
  · intro k
    rw [hPs.2, specFailCols_mem c.toPixelF colsW 0 k]
    constructor
    · rintro ⟨t, ht, rfl, hf⟩
      rw [Nat.zero_add]
      exact ⟨ht, hf⟩
    · rintro ⟨hk, hf⟩
      exact ⟨k, hk, by omega, hf⟩

/-- C2 witness: the bulk/scalar agreement at the identity coordinate on
single-column matrices. -/
theorem C2_bulk_conversion_witness :
    (noCache 0 (List.replicate exC2.np 0) [[(2 : ℚ)]] ∧
     noCache 0 (List.replicate exC2.nw 0) [[(3 : ℚ)]]) ∧
    (exC2.toWorldMany [[(2 : ℚ)]]).1 = [[(2 : ℚ)]].map exC2.toWorldF :=
  ⟨⟨⟨rfl, trivial⟩, ⟨rfl, trivial⟩⟩,
   (C2_bulk_conversion exC2 [[(2 : ℚ)]] [[(3 : ℚ)]]
     ⟨rfl, trivial⟩ ⟨rfl, trivial⟩).1.1⟩

/-- C2 counterexample to the frozen claim: a second column `near`-equal
but not identical to the first is served from the cache, so its output
column is not bit-for-bit equal to the scalar conversion of that column
even though both paths succeed. -/
theorem C2_cache_counterexample :
    (exC2.toWorldMany [[1], [1 + 1 / 10 ^ 14]]).1 = [some [1], some [1]] ∧
    exC2.toWorldF [1 + 1 / 10 ^ 14] = some [1 + 1 / 10 ^ 14] ∧
    ((1 : ℚ) + 1 / 10 ^ 14 ≠ 1) := by
  refine ⟨?_, rfl, by norm_num⟩
  have hs0 : sameFlag 0 [(1 : ℚ)] (List.replicate exC2.np 0) = false := rfl
  have hc0 : exC2.toWorldF [(1 : ℚ)] = some [1] := rfl
  have hs1 : sameFlag 1 [(1 : ℚ) + 1 / 10 ^ 14] [(1 : ℚ)] = true := by
    rw [sameFlag]
    rw [show List.range ([(1 : ℚ) + 1 / 10 ^ 14].length) = [0] from rfl]
    rw [List.all_cons, List.all_nil, Bool.and_true]
    show nearQ nearTol ((1 : ℚ) + 1 / 10 ^ 14) 1 = true
    rw [nearQ]
    simp only [Bool.or_eq_true, decide_eq_true_eq]
    right
    have habs1 : |(1 : ℚ) + 1 / 10 ^ 14 - 1| = 1 / 10 ^ 14 := by
      rw [show (1 : ℚ) + 1 / 10 ^ 14 - 1 = 1 / 10 ^ 14 by ring]
      rw [abs_of_pos]
      norm_num
    have habs2 : |(1 : ℚ) + 1 / 10 ^ 14| = 1 + 1 / 10 ^ 14 := by
      rw [abs_of_pos]
      norm_num
    have habs3 : |(1 : ℚ)| = 1 := abs_one
    rw [habs1, habs2, habs3, max_eq_left (by norm_num), nearTol]
    norm_num
  have hstep : exC2.toWorldMany [[1], [1 + 1 / 10 ^ 14]] =
      bulkLoop exC2.toWorldF [[1], [1 + 1 / 10 ^ 14]] 0
        (List.replicate exC2.np 0) (List.replicate exC2.nw 0) := rfl
  rw [hstep, bulkLoop_cons_conv exC2.toWorldF _ _ hs0 hc0,
    bulkLoop_cons_same exC2.toWorldF _ _ hs1]
  rfl

/-! ## C4, C9, C10 -/

/-- C4: the inner column loop of `setLinearTransform` tests `j < ncol`
instead of `k < ncol`, so whenever the guard holds on entry it never
becomes false and the loop exhausts any fuel bound without
terminating. -/
theorem C4_setLinearTransform_diverges (wmap pmap : List Int)
    (xform : List (List ℚ)) (j ncol : ℕ) (h : j < ncol) :
    ∀ (fuel k : ℕ) (row : List ℚ),
      setLTinner wmap pmap xform j ncol fuel k row = none := by
  intro fuel
  induction fuel with
  | zero => intro k row; rfl
  | succ f ih =>
    intro k row
    rw [setLTinner, if_pos h]
    exact ih _ _

/-- C4 witness: the loop body at `j = 0`, `ncol = 1` returns no result
for a concrete fuel bound. -/
theorem C4_setLinearTransform_diverges_witness :
    0 < 1 ∧ setLTinner [0] [0] [[1]] 0 1 5 0 [0] = none :=
  ⟨by decide, C4_setLinearTransform_diverges [0] [0] [[1]] 0 1 (by decide) 5 0 [0]⟩

/-- C9: in a system whose spectral sub-coordinate sits on world axis 0
the guard `if (specAxis > 1)` is false, so `toFITSHeader` does not
delegate the spectral keywords to the `SpectralCoordinate` FITS
routine, against the claimed delegation for every axis position. -/
theorem C9_spectral_guard_skips_low_axes :
    (exC9.coordAt 0).kind = CKind.spectral ∧
    exC9.findW 0 = some (0, 0) ∧
    specAxisOf exC9 = 0 ∧
    toFITSdelegatesSpectral exC9 = false :=
  ⟨rfl, rfl, rfl, rfl⟩

theorem foldl_append_flatMap {α β : Type} (g : α → List β) :
    ∀ (l : List α) (init : List β),
    l.foldl (fun r i => r ++ g i) init = init ++ l.flatMap g := by
  intro l
  induction l with
  | nil => intro init; simp
  | cons a rest ih =>
    intro init
    rw [List.foldl_cons, ih, List.flatMap_cons, List.append_assoc]

theorem csSaveStep_eq_append (s : CS) (i : ℕ) (r : Rec) :
    csSaveStep s i r = r ++ saveBlock s i := by
  rw [csSaveStep, saveBlock]
  simp [Rec.defineF, List.append_assoc]

/-- C10: `save` leaves the container unchanged and returns false when
the field already exists; otherwise it appends exactly one sub-record
under the field name holding, per sub-coordinate `i`, its own (opaque)
record under `basename<i>` plus the four map/replacement vectors, and
returns true. -/
theorem C10_save (s : CS) (container : Rec) (fieldName : String) :
    (container.isDefinedB fieldName = true →
      s.save container fieldName = (container, false)) ∧
    (container.isDefinedB fieldName = false →
      s.save container fieldName =
        (container.defineF fieldName
          (RVal.sub ((List.range s.nCoords).flatMap (saveBlock s))), true)) := by
  constructor
  · intro h
    rw [CS.save, if_pos h]
  · intro h
    rw [CS.save, if_neg (by rw [h]; exact Bool.false_ne_true)]
    have hfold : (List.range s.nCoords).foldl (fun r i => csSaveStep s i r) [] =
        (List.range s.nCoords).flatMap (saveBlock s) := by
      have hstep : (fun (r : Rec) (i : ℕ) => csSaveStep s i r) =
          (fun (r : Rec) (i : ℕ) => r ++ saveBlock s i) := by
        funext r i
        exact csSaveStep_eq_append s i r
      rw [hstep, foldl_append_flatMap (saveBlock s) (List.range s.nCoords) []]
      rfl
    rw [hfold]

/-- C10 witness: saving the empty system into an empty container. -/
theorem C10_save_witness :
    Rec.isDefinedB [] "cs" = false ∧
    CS.empty.save [] "cs" = (Rec.defineF [] "cs" (RVal.sub []), true) :=
  ⟨rfl, (C10_save CS.empty [] "cs").2 rfl⟩

/-! ## C5: CoordinateSystem::near -/

/-- Under matching maps and kinds the loop returns the first live
coordinate's per-coordinate `near` (true when every coordinate has all
world axes removed). -/
theorem csNearLoop_first_live (s o : CS) (excl : List Int) (tol : ℚ)
    (hwm : s.wmaps = o.wmaps) (hpm : s.pmaps = o.pmaps) :
    ∀ (idx : List ℕ),
    (∀ i ∈ idx, (s.coordAt i).kind = (o.coordAt i).kind) →
    csNearLoop s o excl tol idx =
      match idx.find?
          (fun i => !((s.wmaps.getD i []).all (fun v => decide (v < 0)))) with
      | some i => (s.coordAt i).nearF (o.coordAt i).d (excludeAxesOf s i excl) tol
      | none => true := by
  intro idx
  induction idx with
  | nil => intro _; rfl
  | cons i rest ih =>
    intro hk
    rw [csNearLoop]
    rw [if_neg (not_not_intro (hk i (List.mem_cons_self i rest)))]
    rw [if_neg (not_not_intro (show s.pmaps.getD i [] = o.pmaps.getD i [] by rw [hpm]))]
    rw [if_neg (not_not_intro (show s.wmaps.getD i [] = o.wmaps.getD i [] by rw [hwm]))]
    by_cases hall : (s.wmaps.getD i []).all (fun v => decide (v < 0)) = true
    · rw [if_pos hall, ih (fun j hj => hk j (List.mem_cons_of_mem i hj))]
      rw [List.find?_cons_of_neg _ (by simp only [hall]; decide)]
    · rw [if_neg hall]
      have hcross : ((s.wmaps.getD i []).all (fun w =>
          if 0 ≤ w then decide (CS.findIn s.wmaps w = CS.findIn o.wmaps w)
          else true)) = true := by
        rw [hwm]
        simp
      rw [if_pos hcross]
      rw [List.find?_cons_of_pos _ (by
        simp only [Bool.not_eq_true] at hall
        simp only [hall]
        decide)]

/-- C5 (amended): for systems with equal coordinate counts, identical
world and pixel maps and pairwise matching kinds, `near` returns the
per-sub-coordinate `near` comparison of the FIRST sub-coordinate with
at least one unremoved world axis (true when there is none) — the
source `return`s from inside its loop, so later sub-coordinates are
never compared. -/
theorem C5_near_first_live (s o : CS) (excl : List Int) (tol : ℚ)
    (hn : s.nCoords = o.nCoords) (hwm : s.wmaps = o.wmaps)
    (hpm : s.pmaps = o.pmaps)
    (hk : ∀ i, i < s.nCoords → (s.coordAt i).kind = (o.coordAt i).kind) :
    CS.near s o excl tol =
      match (List.range s.nCoords).find?
          (fun i => !((s.wmaps.getD i []).all (fun v => decide (v < 0)))) with
      | some i => (s.coordAt i).nearF (o.coordAt i).d (excludeAxesOf s i excl) tol
      | none => true := by
  have hP2 : s.nP = o.nP := by rw [CS.nP, CS.nP, hpm]
  have hW2 : s.nW = o.nW := by rw [CS.nW, CS.nW, hwm]
  rw [CS.near]
  rw [if_neg (not_not_intro hn)]
  rw [if_neg (not_not_intro hP2)]
  rw [if_neg (not_not_intro hW2)]
  exact csNearLoop_first_live s o excl tol hwm hpm (List.range s.nCoords)
    (fun i hi => hk i (by simpa using hi))

/-- C5 witness: the characterization at the concrete two-coordinate
system compared with itself. -/
theorem C5_near_first_live_witness :
    (exC5.nCoords = exC5.nCoords ∧ exC5.wmaps = exC5.wmaps ∧
      exC5.pmaps = exC5.pmaps ∧
      ∀ i, i < exC5.nCoords → (exC5.coordAt i).kind = (exC5.coordAt i).kind) ∧
    CS.near exC5 exC5 [] nearTol =
      match (List.range exC5.nCoords).find?
          (fun i => !((exC5.wmaps.getD i []).all (fun v => decide (v < 0)))) with
      | some i => (exC5.coordAt i).nearF (exC5.coordAt i).d
          (excludeAxesOf exC5 i []) nearTol
      | none => true :=
  ⟨⟨rfl, rfl, rfl, fun i _ => rfl⟩,
   C5_near_first_live exC5 exC5 [] nearTol rfl rfl rfl (fun i _ => rfl)⟩

/-- C5 counterexample to the frozen claim: comparing `exC5` with itself
returns true although the second sub-coordinate is live and its
per-sub-coordinate `near` comparison fails — the "for every
sub-coordinate" reading does not hold. -/
theorem C5_early_return_counterexample :
    CS.near exC5 exC5 [] nearTol = true ∧
    ((exC5.wmaps.getD 1 []).all (fun v => decide (v < 0))) = false ∧
    (exC5.coordAt 1).nearF (exC5.coordAt 1).d (excludeAxesOf exC5 1 []) nearTol
      = false :=
  ⟨rfl, rfl, rfl⟩

/-! ## C7: setWorldAxisUnits -/

/-- When every (old, new) pair parses with matching dimensions, the
scale-factor loop returns the component-wise `old_scale / new_scale`
ratios. -/
theorem fsfLoop_ok (env : UnitEnv) :
    ∀ (units old : List String),
    units.length = old.length →
    (∀ i, i < units.length →
      (scaleOf env (old.getD i "") (units.getD i "")).isSome = true) →
    fsfLoop env units old =
      .ok ((List.range units.length).map
        (fun i => (scaleOf env (old.getD i "") (units.getD i "")).getD 1)) := by
  intro units
  induction units with
  | nil => intro old hlen h; rfl
  | cons u us ih =>
    intro old hlen h
    cases old with
    | nil => simp at hlen
    | cons o os =>
      have h0 := h 0 (by simp)
      simp only [List.getD_cons_zero] at h0
      rcases ho : env o with _ | po
      · rw [scaleOf, ho] at h0
        simp at h0
      rcases hu : env u with _ | pu
      · rw [scaleOf, ho, hu] at h0
        simp at h0
      obtain ⟨db, fb⟩ := po
      obtain ⟨da, fa⟩ := pu
      by_cases hd : db = da
      · have hsc : scaleOf env o u = some (fb / fa) := by
          rw [scaleOf, ho, hu]
          simp only [if_pos hd]
        have hlen2 : us.length = os.length := by
          simp only [List.length_cons] at hlen
          omega
        have h2 : ∀ i, i < us.length →
            (scaleOf env (os.getD i "") (us.getD i "")).isSome = true := by
          intro i hi
          have := h (i + 1) (by simp only [List.length_cons]; omega)
          simpa using this
        rw [fsfLoop]
        simp only [ho, hu]
        rw [if_pos hd, ih os hlen2 h2]
        rw [List.length_cons, List.range_succ_eq_map, List.map_cons, List.map_map]
        simp only [List.getD_cons_zero]
        rw [hsc]
        rfl
      · exfalso
        rw [scaleOf, ho, hu] at h0
        simp only [if_neg hd] at h0
        simp at h0

/-- When some (old, new) pair is unknown or dimensionally mismatched,
the scale-factor loop fails. -/
theorem fsfLoop_err (env : UnitEnv) :
    ∀ (units old : List String),
    units.length = old.length →
    (∃ i, i < units.length ∧
      scaleOf env (old.getD i "") (units.getD i "") = none) →
    ∃ e, fsfLoop env units old = .error e := by
  intro units
  induction units with
  | nil =>
    intro old hlen h
    obtain ⟨i, hi, _⟩ := h
    simp at hi
  | cons u us ih =>
    intro old hlen h
    cases old with
    | nil => simp at hlen
    | cons o os =>
      rcases ho : env o with _ | po
      · exact ⟨"Unknown unit - cannot calculate scaling", by
          rw [fsfLoop]
          simp only [ho]⟩
      rcases hu : env u with _ | pu
      · exact ⟨"Unknown unit - cannot calculate scaling", by
          rw [fsfLoop]
          simp only [ho, hu]⟩
      obtain ⟨db, fb⟩ := po
      obtain ⟨da, fa⟩ := pu
      by_cases hd : db = da
      · obtain ⟨i, hi, hnone⟩ := h
        cases i with
        | zero =>
          exfalso
          simp only [List.getD_cons_zero] at hnone
          rw [scaleOf, ho, hu] at hnone
          simp only [if_pos hd] at hnone
          cases hnone
        | succ i1 =>
          have hlen2 : us.length = os.length := by
            simp only [List.length_cons] at hlen
            omega
          obtain ⟨e, he⟩ := ih os hlen2 ⟨i1, by
            simp only [List.length_cons] at hi
            omega, by simpa using hnone⟩
          refine ⟨e, ?_⟩
          rw [fsfLoop]
          simp only [ho, hu]
          rw [if_pos hd, he]
      · exact ⟨"Units are not compatible dimensionally", by
          rw [fsfLoop]
          simp only [ho, hu]
          rw [if_neg hd]⟩

/-- C7: `setWorldAxisUnits` is a no-op on equal units; otherwise, when
every (old, new) unit pair parses with matching dimensions it succeeds,
multiplying the increment and the reference value component-wise by
`old_scale / new_scale` and storing the new units; and it fails with
kind `IncompatibleUnit` when some pair has an unknown unit or
mismatched dimensions. -/
theorem C7_setWorldAxisUnits (env : UnitEnv) (c : Coord) (units : List String)
    (hlen : units.length = c.nw) (hcu : c.units.length = c.nw) :
    (units = c.units → Coord.setWorldAxisUnitsQ env c units = .ok c) ∧
    (units ≠ c.units →
      (∀ i, i < units.length →
        (scaleOf env (c.units.getD i "") (units.getD i "")).isSome = true) →
      ∃ c2, Coord.setWorldAxisUnitsQ env c units = .ok c2 ∧
        c2.units = units ∧
        c2.inc = List.zipWith (fun a b => a * b) c.inc
          ((List.range units.length).map
            (fun i => (scaleOf env (c.units.getD i "") (units.getD i "")).getD 1)) ∧
        c2.refVal = List.zipWith (fun a b => a * b) c.refVal
          ((List.range units.length).map
            (fun i => (scaleOf env (c.units.getD i "") (units.getD i "")).getD 1))) ∧
    (units ≠ c.units →
      (∃ i, i < units.length ∧
        scaleOf env (c.units.getD i "") (units.getD i "") = none) →
      Coord.setWorldAxisUnitsQ env c units = .error .incompatibleUnit) := by
  have hll : units.length = c.units.length := by omega
  refine ⟨?_, ?_, ?_⟩
  · intro he
    rw [Coord.setWorldAxisUnitsQ, if_neg (not_not_intro hlen), if_pos he]
  · intro hne hall
    rw [Coord.setWorldAxisUnitsQ, if_neg (not_not_intro hlen), if_neg hne]
    rw [find_scale_factor, if_pos hll, fsfLoop_ok env units c.units hll hall]
    exact ⟨_, rfl, rfl, rfl, rfl⟩
  · intro hne hbad
    rw [Coord.setWorldAxisUnitsQ, if_neg (not_not_intro hlen), if_neg hne]
    obtain ⟨e, he⟩ := fsfLoop_err env units c.units hll hbad
    rw [find_scale_factor, if_pos hll, he]

/-- C7 witness: converting metres to kilometres scales the increment
and the reference value by 1/1000. -/
theorem C7_setWorldAxisUnits_witness :
    ((["km"].length = exC2.nw) ∧ (exC2.units.length = exC2.nw) ∧
      (["km"] ≠ exC2.units) ∧
      ∀ i, i < (["km"] : List String).length →
        (scaleOf exEnv (exC2.units.getD i "") (["km"].getD i "")).isSome = true) ∧
    (∃ c2, Coord.setWorldAxisUnitsQ exEnv exC2 ["km"] = .ok c2 ∧
      c2.units = ["km"] ∧
      c2.inc = List.zipWith (fun a b => a * b) exC2.inc
        ((List.range (["km"] : List String).length).map
          (fun i => (scaleOf exEnv (exC2.units.getD i "") (["km"].getD i "")).getD 1)) ∧
      c2.refVal = List.zipWith (fun a b => a * b) exC2.refVal
        ((List.range (["km"] : List String).length).map
          (fun i => (scaleOf exEnv (exC2.units.getD i "") (["km"].getD i "")).getD 1))) :=
  ⟨⟨rfl, rfl, by decide, by decide⟩,
   (C7_setWorldAxisUnits exEnv exC2 ["km"] rfl rfl).2.1 (by decide) (by decide)⟩

end Casa
